import Mathlib

/-!
Shallow embedding of `rbd::mirror::ImageDeleter` from
`src/tools/rbd_mirror/ImageDeleter.cc`.

The deleter keeps `DeleteInfo` records in three positions: the pending
deque (`m_delete_queue`), the active slot (`m_active_delete`) and the
failed deque (`m_failed_queue`).  C++ `std::deque`s are embedded as Lean
lists whose head is the deque's *front*; `push_front` is `cons`, `back`
is `getLast?` and `pop_back` is `dropLast`.

Completion callbacks (`Context *`) are embedded as natural-number ids
drawn from a freshness counter held in the state; firing a callback with
result `r` is recorded as an `Event.complete id r` in the event list an
operation returns.  Signalling the condition variable is recorded as
`Event.signal`.  The pending retry timers of the deferred-timer service
are counted by `timer_count` (scheduling a one-shot timer increments it,
the timer firing decrements it and runs `retry_failed_deletions`).

Each entry also carries a `uid`, a fresh identifier assigned at
construction, used only to track one entry across steps in the
statements (the C++ analogue is the object's address).
-/

namespace RbdMirror

/-- `-EBLACKLISTED` sentinel (magnitude); Ceph defines `EBLACKLISTED` as 108. -/
def EBLACKLISTED : Int := 108

/-- `-ESTALE` sentinel (magnitude), Linux errno 116. -/
def ESTALE : Int := 116

/-- `-ECANCELED` sentinel (magnitude), Linux errno 125. -/
def ECANCELED : Int := 125

/-- The error classifier set by the remove-pipeline
(`image_deleter::ErrorResult`). -/
inductive ErrorResult where
  | complete
  | retryImmediately
  | other
deriving DecidableEq, Repr

/-- One deletion request (`ImageDeleter::DeleteInfo`).  `on_delete` holds
the id of the installed completion callback, or `none` for the null
pointer.  `local_io_ctx` is omitted: the scheduler only reads its pool id
(`get_id()`, embedded as the `local_pool_id` argument) and otherwise just
hands the handle to the external remove-pipeline. -/
structure DeleteInfo where
  uid : Nat
  local_pool_id : Int
  global_image_id : String
  ignore_orphaned : Bool
  on_delete : Option Nat := none
  notify_on_failed_retry : Bool := false
  error_code : Int := 0
  retries : Nat := 0
deriving DecidableEq, Repr

/-- `DeleteInfo::match`: identity is (local_pool_id, global_image_id). -/
def DeleteInfo.matchId (d : DeleteInfo) (p : Int) (g : String) : Bool :=
  d.local_pool_id = p && d.global_image_id = g

/-- An observable effect of an operation: a callback completing with a
result code, or the condition variable being signalled. -/
inductive Event where
  | complete (cb : Nat) (r : Int)
  | signal
deriving DecidableEq, Repr

/-- The scheduler state: the three entry positions, the number of pending
retry timers, and the freshness counter for uids and callback ids. -/
structure DeleterState where
  delete_queue : List DeleteInfo
  active_delete : Option DeleteInfo
  failed_queue : List DeleteInfo
  timer_count : Nat
  next_uid : Nat
deriving DecidableEq, Repr

/-- The freshly constructed deleter: all positions empty. -/
def initState : DeleterState :=
  { delete_queue := [], active_delete := none, failed_queue := [],
    timer_count := 0, next_uid := 0 }

/-- `ImageDeleter::find_delete_info`: check the active slot, then the
pending deque front-to-back, then the failed deque front-to-back. -/
def find_delete_info (s : DeleterState) (p : Int) (g : String) :
    Option DeleteInfo :=
  match s.active_delete with
  | some d =>
      if d.matchId p g then some d
      else
        match s.delete_queue.find? (fun e => e.matchId p g) with
        | some e => some e
        | none => s.failed_queue.find? (fun e => e.matchId p g)
  | none =>
      match s.delete_queue.find? (fun e => e.matchId p g) with
      | some e => some e
      | none => s.failed_queue.find? (fun e => e.matchId p g)

/-- Apply `f` to the first entry of the list matching `(p, g)` (the C++
code mutates through the pointer `find_delete_info` returned, which
points at the first match in iteration order). -/
def updateFirstMatch (f : DeleteInfo → DeleteInfo) (p : Int) (g : String) :
    List DeleteInfo → List DeleteInfo
  | [] => []
  | d :: ds =>
      if d.matchId p g then f d :: ds
      else d :: updateFirstMatch f p g ds

/-- Apply `f` to the entry `find_delete_info` locates: the active slot if
it matches, else the first match in the pending deque, else the first
match in the failed deque. -/
def updateFound (s : DeleterState) (p : Int) (g : String)
    (f : DeleteInfo → DeleteInfo) : DeleterState :=
  match s.active_delete with
  | some d =>
      if d.matchId p g then { s with active_delete := some (f d) }
      else if (s.delete_queue.find? (fun e => e.matchId p g)).isSome then
        { s with delete_queue := updateFirstMatch f p g s.delete_queue }
      else
        { s with failed_queue := updateFirstMatch f p g s.failed_queue }
  | none =>
      if (s.delete_queue.find? (fun e => e.matchId p g)).isSome then
        { s with delete_queue := updateFirstMatch f p g s.delete_queue }
      else
        { s with failed_queue := updateFirstMatch f p g s.failed_queue }

/-- `ImageDeleter::schedule_image_delete`.  If a matching entry exists,
only (possibly) set its `ignore_orphaned` flag; otherwise push a new
`DeleteInfo` at the *front* of the pending deque and signal. -/
def schedule_image_delete (s : DeleterState) (p : Int) (g : String)
    (ignore_orphaned : Bool) : DeleterState × List Event :=
  match find_delete_info s p g with
  | some _ =>
      if ignore_orphaned then
        (updateFound s p g (fun d => { d with ignore_orphaned := true }), [])
      else (s, [])
  | none =>
      ({ s with
          delete_queue :=
            { uid := s.next_uid, local_pool_id := p, global_image_id := g,
              ignore_orphaned := ignore_orphaned } :: s.delete_queue,
          next_uid := s.next_uid + 1 },
       [Event.signal])

/-- The `DeleteInfo` a miss of `schedule_image_delete` constructs (the
`new DeleteInfo(...)` at line 214 of the source), with the uid it is
assigned. -/
def newEntry (n : Nat) (p : Int) (g : String) (io : Bool) : DeleteInfo :=
  { uid := n, local_pool_id := p, global_image_id := g,
    ignore_orphaned := io }

/-- `DeleteInfo::notify`: if a callback is installed, clear the slot and
complete it with `r`; otherwise do nothing. -/
def DeleteInfo.notify (d : DeleteInfo) (r : Int) : DeleteInfo × List Event :=
  match d.on_delete with
  | some cb => ({ d with on_delete := none }, [Event.complete cb r])
  | none => (d, [])

/-- `ImageDeleter::wait_for_scheduled_deletion`.  The caller's context is
wrapped in a fresh work-queue dispatching context (id `s.next_uid`).  If
no entry matches, the wrapped context completes with 0; otherwise any
already-installed `on_delete` completes with `-ESTALE` and the new
context is installed together with `notify_on_failed_retry`. -/
def wait_for_scheduled_deletion (s : DeleterState) (p : Int) (g : String)
    (notify_on_failed_retry : Bool) : DeleterState × List Event :=
  let cb := s.next_uid
  match find_delete_info s p g with
  | none => ({ s with next_uid := s.next_uid + 1 }, [Event.complete cb 0])
  | some d =>
      let displaced :=
        match d.on_delete with
        | some old => [Event.complete old (-ESTALE)]
        | none => []
      (updateFound { s with next_uid := s.next_uid + 1 } p g
        (fun e => { e with on_delete := some cb,
                           notify_on_failed_retry := notify_on_failed_retry }),
       displaced)

/-- `ImageDeleter::cancel_waiter`: if a matching entry has a callback
installed, complete it with `-ECANCELED` and null the slot; the entry
stays where it is. -/
def cancel_waiter (s : DeleterState) (p : Int) (g : String) :
    DeleterState × List Event :=
  match find_delete_info s p g with
  | none => (s, [])
  | some d =>
      match d.on_delete with
      | some cb =>
          (updateFound s p g (fun e => { e with on_delete := none }),
           [Event.complete cb (-ECANCELED)])
      | none => (s, [])

/-- The worker claiming the next request (`ImageDeleter::run`, lines
moving `m_delete_queue.back()` into `m_active_delete`). -/
def take_next (s : DeleterState) : DeleterState :=
  { s with active_delete := s.delete_queue.getLast?,
           delete_queue := s.delete_queue.dropLast }

/-- `ImageDeleter::complete_active_delete`: notify the active entry with
`r` and clear the active slot. -/
def complete_active_delete (s : DeleterState) (r : Int) :
    DeleterState × List Event :=
  match s.active_delete with
  | some d => ({ s with active_delete := none }, (d.notify r).2)
  | none => (s, [])

/-- `ImageDeleter::enqueue_failed_delete`.  A `-EBLACKLISTED` code short-
circuits to `complete_active_delete`.  Otherwise: notify the waiter iff
`notify_on_failed_retry`, record the error code, push the entry at the
front of the failed deque, and schedule the one-shot retry timer iff the
failed deque was empty before the insertion. -/
def enqueue_failed_delete (s : DeleterState) (error_code : Int) :
    DeleterState × List Event :=
  if error_code = -EBLACKLISTED then
    complete_active_delete s error_code
  else
    match s.active_delete with
    | some d =>
        let d1 := if d.notify_on_failed_retry then (d.notify error_code).1 else d
        let evs := if d.notify_on_failed_retry then (d.notify error_code).2 else []
        ({ s with active_delete := none,
                  failed_queue := { d1 with error_code := error_code } :: s.failed_queue,
                  timer_count :=
                    if s.failed_queue.isEmpty then s.timer_count + 1
                    else s.timer_count },
         evs)
    | none => (s, [])

/-- `ImageDeleter::process_image_delete`, parameterised by the result `r`
and classifier `er` the remove-pipeline returned.  Returns the new state,
the events, and the `move_to_next` boolean. -/
def process_image_delete (s : DeleterState) (r : Int) (er : ErrorResult) :
    DeleterState × List Event × Bool :=
  if r < 0 then
    match er with
    | ErrorResult.complete =>
        ((complete_active_delete s r).1, (complete_active_delete s r).2, true)
    | ErrorResult.retryImmediately =>
        match s.active_delete with
        | some d =>
            ({ s with active_delete := none,
                      delete_queue := (d.notify r).1 :: s.delete_queue },
             (d.notify r).2, false)
        | none => (s, [], false)
    | ErrorResult.other =>
        ((enqueue_failed_delete s r).1, (enqueue_failed_delete s r).2, true)
  else
    ((complete_active_delete s 0).1, (complete_active_delete s 0).2, true)

/-- The drain loop of `ImageDeleter::retry_failed_deletions`: repeatedly
push the *back* of the failed deque onto the *back* of the pending deque,
incrementing `retries`.  Draining from the back is recursion on the
reversed failed deque. -/
def retry_drain (pending : List DeleteInfo) :
    List DeleteInfo → List DeleteInfo
  | [] => pending
  | d :: rest => retry_drain (pending ++ [{ d with retries := d.retries + 1 }]) rest

/-- `ImageDeleter::retry_failed_deletions` (the timer-fired callback
body): drain the failed deque into the pending deque and signal iff it
was non-empty. -/
def retry_failed_deletions (s : DeleterState) : DeleterState × List Event :=
  let evs := if s.failed_queue.isEmpty then [] else [Event.signal]
  ({ s with delete_queue := retry_drain s.delete_queue s.failed_queue.reverse,
            failed_queue := [] },
   evs)

/-- The deferred-timer service firing one pending retry timer. -/
def fire_retry_timer (s : DeleterState) : DeleterState × List Event :=
  retry_failed_deletions { s with timer_count := s.timer_count - 1 }

/-- `ImageDeleter::get_delete_queue_items`: the pending global image ids. -/
def get_delete_queue_items (s : DeleterState) : List String :=
  s.delete_queue.map (fun d => d.global_image_id)

/-- `ImageDeleter::get_failed_queue_items`: (global image id, error code)
pairs of the failed deque. -/
def get_failed_queue_items (s : DeleterState) : List (String × Int) :=
  s.failed_queue.map (fun d => (d.global_image_id, d.error_code))

/-- One emitted status record of `DeleteInfo::print_status`:
`failure_info` carries (error_code, retries) when the failure section is
printed. -/
structure StatusEntry where
  local_pool_id : Int
  global_image_id : String
  failure_info : Option (Int × Nat)
deriving DecidableEq, Repr

/-- `DeleteInfo::print_status`. -/
def DeleteInfo.statusEntry (d : DeleteInfo) (print_failure_info : Bool) :
    StatusEntry :=
  { local_pool_id := d.local_pool_id, global_image_id := d.global_image_id,
    failure_info :=
      if print_failure_info then some (d.error_code, d.retries) else none }

/-- `ImageDeleter::print_status`: the `delete_images_queue` array (from
the pending deque) and the `failed_deletes_queue` array (from the failed
deque, with failure info). -/
def print_status (s : DeleterState) : List StatusEntry × List StatusEntry :=
  (s.delete_queue.map (fun d => d.statusEntry false),
   s.failed_queue.map (fun d => d.statusEntry true))

/-- All entries across the three positions, in `find_delete_info`'s
iteration order: active slot, pending deque, failed deque. -/
def allEntries (s : DeleterState) : List DeleteInfo :=
  s.active_delete.toList ++ s.delete_queue ++ s.failed_queue

/-- One transition of the deleter, labelled with the events it emits.
`take` and `process` carry the worker-loop preconditions (the worker pops
only with the active slot empty and processes only what it just took);
`fire` requires a pending timer. -/
inductive Step : DeleterState → List Event → DeleterState → Prop where
  | schedule (s : DeleterState) (p : Int) (g : String) (io : Bool) :
      Step s (schedule_image_delete s p g io).2 (schedule_image_delete s p g io).1
  | wait (s : DeleterState) (p : Int) (g : String) (nofr : Bool) :
      Step s (wait_for_scheduled_deletion s p g nofr).2
        (wait_for_scheduled_deletion s p g nofr).1
  | cancel (s : DeleterState) (p : Int) (g : String) :
      Step s (cancel_waiter s p g).2 (cancel_waiter s p g).1
  | take (s : DeleterState) (h : s.delete_queue ≠ [])
      (ha : s.active_delete = none) :
      Step s [] (take_next s)
  | process (s : DeleterState) (r : Int) (er : ErrorResult)
      (ha : s.active_delete.isSome) :
      Step s (process_image_delete s r er).2.1 (process_image_delete s r er).1
  | fire (s : DeleterState) (ht : 0 < s.timer_count) :
      Step s (fire_retry_timer s).2 (fire_retry_timer s).1

/-- Zero or more transitions, accumulating events. -/
inductive Steps : DeleterState → List Event → DeleterState → Prop where
  | refl (s : DeleterState) : Steps s [] s
  | tail {s s1 s2 : DeleterState} {tr evs : List Event} :
      Steps s tr s1 → Step s1 evs s2 → Steps s (tr ++ evs) s2

/-- Reachability from the freshly constructed deleter. -/
def Reach (s : DeleterState) (tr : List Event) : Prop :=
  Steps initState tr s


/-! ### Basic lemmas about the embedding -/

theorem matchId_iff {d : DeleteInfo} {p : Int} {g : String} :
    d.matchId p g = true ↔ d.local_pool_id = p ∧ d.global_image_id = g := by
  simp [DeleteInfo.matchId]


/-- `find_delete_info` is `find?` over the three positions in order. -/
theorem find_delete_info_eq (s : DeleterState) (p : Int) (g : String) :
    find_delete_info s p g
      = (allEntries s).find? (fun e => e.matchId p g) := by
  unfold find_delete_info allEntries
  cases s.active_delete with
  | none =>
      cases hq : s.delete_queue.find? (fun e => e.matchId p g) <;>
        simp [Option.toList, hq]
  | some a =>
      by_cases hm : a.matchId p g = true
      · simp [Option.toList, hm]
      · cases hq : s.delete_queue.find? (fun e => e.matchId p g) <;>
          simp [Option.toList, hm, hq]

/-- `find_delete_info` misses exactly when nothing in the three positions
matches. -/
theorem find_delete_info_eq_none {s : DeleterState} {p : Int} {g : String} :
    find_delete_info s p g = none ↔
      ∀ d ∈ allEntries s, d.matchId p g = false := by
  rw [find_delete_info_eq]
  simp

/-- What `find_delete_info` returns is a matching member of the union. -/
theorem find_delete_info_eq_some {s : DeleterState} {p : Int} {g : String}
    {a : DeleteInfo} (h : find_delete_info s p g = some a) :
    a ∈ allEntries s ∧ a.matchId p g = true := by
  rw [find_delete_info_eq] at h
  have hp := List.find?_some h
  exact ⟨List.mem_of_find?_eq_some h, by simpa using hp⟩

/-- If no entry of `l` matches, `updateFirstMatch` is the identity. -/
theorem updateFirstMatch_eq_of_none {p : Int} {g : String}
    {f : DeleteInfo → DeleteInfo} {l : List DeleteInfo}
    (h : l.find? (fun e => e.matchId p g) = none) :
    updateFirstMatch f p g l = l := by
  induction l with
  | nil => rfl
  | cons d ds ih =>
      simp only [List.find?_eq_none, List.mem_cons] at h
      have hm : d.matchId p g = false :=
        Bool.eq_false_iff.mpr (h d (Or.inl rfl))
      rw [updateFirstMatch, if_neg (by simp [hm])]
      rw [ih (List.find?_eq_none.mpr (fun x hx => h x (Or.inr hx)))]

/-- `updateFirstMatch` rewrites exactly the entry `find?` locates. -/
theorem updateFirstMatch_split {p : Int} {g : String}
    {f : DeleteInfo → DeleteInfo} {l : List DeleteInfo} {a : DeleteInfo}
    (h : l.find? (fun e => e.matchId p g) = some a) :
    ∃ l1 l2, l = l1 ++ a :: l2
      ∧ updateFirstMatch f p g l = l1 ++ f a :: l2 := by
  induction l with
  | nil => cases h
  | cons d ds ih =>
      by_cases hm : d.matchId p g = true
      · rw [List.find?_cons_of_pos _ (by simpa using hm)] at h
        cases h
        exact ⟨[], ds, rfl, by simp [updateFirstMatch, hm]⟩
      · rw [List.find?_cons_of_neg _ (by simpa using hm)] at h
        obtain ⟨l1, l2, he, hu⟩ := ih h
        exact ⟨d :: l1, l2, by simp [he],
          by simp [updateFirstMatch, hm, hu]⟩

/-- `updateFound` leaves the counters, the queue lengths and the rest of
the union alone, rewriting only the located entry. -/
theorem updateFound_split {s : DeleterState} {p : Int} {g : String}
    {a : DeleteInfo} (f : DeleteInfo → DeleteInfo)
    (h : find_delete_info s p g = some a) :
    (updateFound s p g f).timer_count = s.timer_count
    ∧ (updateFound s p g f).next_uid = s.next_uid
    ∧ (updateFound s p g f).delete_queue.length = s.delete_queue.length
    ∧ (updateFound s p g f).failed_queue.length = s.failed_queue.length
    ∧ ∃ l1 l2, allEntries s = l1 ++ a :: l2
        ∧ allEntries (updateFound s p g f) = l1 ++ f a :: l2 := by
  unfold updateFound
  cases ha : s.active_delete with
  | some b =>
      by_cases hm : b.matchId p g = true
      · have hb : a = b := by
          rw [find_delete_info_eq] at h
          unfold allEntries at h
          rw [ha] at h
          simp [Option.toList, hm] at h
          exact h.symm
        subst hb
        refine ⟨by simp [hm], by simp [hm], by simp [hm], by simp [hm],
          [], s.delete_queue ++ s.failed_queue, ?_, ?_⟩
        · simp [allEntries, ha, Option.toList]
        · simp [allEntries, hm, Option.toList]
      · have hm' : b.matchId p g = false := by
          simpa using hm
        cases hq : s.delete_queue.find? (fun e => e.matchId p g) with
        | some e =>
            have he : a = e := by
              rw [find_delete_info_eq] at h
              unfold allEntries at h
              rw [ha] at h
              simp [Option.toList, hm', hq] at h
              exact h.symm
            subst he
            obtain ⟨l1, l2, hsp, hup⟩ := updateFirstMatch_split (f := f) hq
            refine ⟨by simp [hm', hq], by simp [hm', hq],
              by simp only [hm', hq]; rw [hup, hsp]; simp, by simp [hm', hq],
              b :: l1, l2 ++ s.failed_queue, ?_, ?_⟩
            · simp [allEntries, ha, Option.toList, hsp]
            · simp [allEntries, hm', hq, Option.toList, hup]
        | none =>
            have hfq : s.failed_queue.find? (fun e => e.matchId p g)
                = some a := by
              rw [find_delete_info_eq] at h
              unfold allEntries at h
              rw [ha] at h
              simpa [Option.toList, hm', hq] using h
            obtain ⟨l1, l2, hsp, hup⟩ := updateFirstMatch_split (f := f) hfq
            refine ⟨by simp [hm', hq], by simp [hm', hq],
              by simp [hm', hq], by simp only [hm', hq]; rw [hup, hsp]; simp,
              b :: s.delete_queue ++ l1, l2, ?_, ?_⟩
            · simp [allEntries, ha, Option.toList, hsp]
            · simp [allEntries, hm', hq, Option.toList, hup]
  | none =>
      cases hq : s.delete_queue.find? (fun e => e.matchId p g) with
      | some e =>
          have he : a = e := by
            rw [find_delete_info_eq] at h
            unfold allEntries at h
            rw [ha] at h
            simp [Option.toList, hq] at h
            exact h.symm
          subst he
          obtain ⟨l1, l2, hsp, hup⟩ := updateFirstMatch_split (f := f) hq
          refine ⟨by simp [hq], by simp [hq], by simp only [hq]; rw [hup, hsp]; simp,
            by simp [hq], l1, l2 ++ s.failed_queue, ?_, ?_⟩
          · simp [allEntries, ha, Option.toList, hsp]
          · simp [allEntries, hq, Option.toList, hup]
      | none =>
          have hfq : s.failed_queue.find? (fun e => e.matchId p g)
              = some a := by
            rw [find_delete_info_eq] at h
            unfold allEntries at h
            rw [ha] at h
            simpa [Option.toList, hq] using h
          obtain ⟨l1, l2, hsp, hup⟩ := updateFirstMatch_split (f := f) hfq
          refine ⟨by simp [hq], by simp [hq], by simp [hq],
            by simp only [hq]; rw [hup, hsp]; simp, s.delete_queue ++ l1, l2, ?_, ?_⟩
          · simp [allEntries, ha, Option.toList, hsp]
          · simp [allEntries, hq, Option.toList, hup]

/-- `updateFirstMatch` preserves any per-entry measurement `f` fixes. -/
theorem updateFirstMatch_map {γ : Type} {p : Int} {g : String}
    {f : DeleteInfo → DeleteInfo} (h : DeleteInfo → γ)
    (hf : ∀ d, h (f d) = h d) (l : List DeleteInfo) :
    (updateFirstMatch f p g l).map h = l.map h := by
  induction l with
  | nil => rfl
  | cons d ds ih =>
      by_cases hm : d.matchId p g = true
      · simp [updateFirstMatch, hm, hf]
      · simp only [Bool.not_eq_true] at hm
        simp [updateFirstMatch, hm, ih]

/-- `updateFound` preserves any per-entry measurement `f` fixes, on each
of the three positions separately. -/
theorem updateFound_maps {γ : Type} {s : DeleterState} {p : Int}
    {g : String} {f : DeleteInfo → DeleteInfo} (h : DeleteInfo → γ)
    (hf : ∀ d, h (f d) = h d) :
    (updateFound s p g f).delete_queue.map h = s.delete_queue.map h
    ∧ (updateFound s p g f).failed_queue.map h = s.failed_queue.map h
    ∧ (updateFound s p g f).active_delete.map h = s.active_delete.map h := by
  unfold updateFound
  cases ha : s.active_delete with
  | some b =>
      by_cases hm : b.matchId p g = true
      · simp [hm, hf]
      · simp only [Bool.not_eq_true] at hm
        by_cases hq : (s.delete_queue.find?
            (fun e => e.matchId p g)).isSome = true
        · simp [hm, hq, updateFirstMatch_map h hf]
        · simp only [Bool.not_eq_true] at hq
          simp [hm, hq, updateFirstMatch_map h hf]
  | none =>
      by_cases hq : (s.delete_queue.find?
          (fun e => e.matchId p g)).isSome = true
      · simp [hq, updateFirstMatch_map h hf]
      · simp only [Bool.not_eq_true] at hq
        simp [hq, updateFirstMatch_map h hf]

/-- Closed form of the failed-deque drain loop. -/
theorem retry_drain_eq (pending l : List DeleteInfo) :
    retry_drain pending l
      = pending ++ l.map (fun d => { d with retries := d.retries + 1 }) := by
  induction l generalizing pending with
  | nil => simp [retry_drain]
  | cons d ds ih => simp [retry_drain, ih]

/-! ### Counting callbacks and entries -/

/-- The callback id an event completes, if any. -/
def eventCb : Event → Option Nat
  | Event.complete cb _ => some cb
  | Event.signal => none

/-- The callback ids completed in a trace, in order. -/
def firedIds (tr : List Event) : List Nat := tr.filterMap eventCb

@[simp] theorem firedIds_nil : firedIds [] = [] := rfl

@[simp] theorem firedIds_append (t1 t2 : List Event) :
    firedIds (t1 ++ t2) = firedIds t1 ++ firedIds t2 :=
  List.filterMap_append t1 t2 eventCb

@[simp] theorem firedIds_complete (cb : Nat) (r : Int) (tr : List Event) :
    firedIds (Event.complete cb r :: tr) = cb :: firedIds tr := rfl

@[simp] theorem firedIds_signal (tr : List Event) :
    firedIds (Event.signal :: tr) = firedIds tr := rfl

/-- How many entries across the three positions hold callback id `i`. -/
def slotCount (s : DeleterState) (i : Nat) : Nat :=
  (allEntries s).countP (fun d => d.on_delete = some i)

/-- How many entries across the three positions match `(p, g)`. -/
def matchCount (s : DeleterState) (p : Int) (g : String) : Nat :=
  (allEntries s).countP (fun d => d.matchId p g)

/-- How many entries across the three positions carry uid `u`. -/
def uidCount (s : DeleterState) (u : Nat) : Nat :=
  (allEntries s).countP (fun d => d.uid = u)

theorem isEmpty_eq_of_length_eq {α : Type} {l l' : List α}
    (h : l.length = l'.length) : l.isEmpty = l'.isEmpty := by
  cases l <;> cases l' <;> simp_all

/-- The exact count change of an `updateFound`: entry `a` is replaced by
`f a`, everything else stays. -/
theorem countP_updateFound {s : DeleterState} {p : Int} {g : String}
    {a : DeleteInfo} (q : DeleteInfo → Bool) (f : DeleteInfo → DeleteInfo)
    (h : find_delete_info s p g = some a) :
    (allEntries (updateFound s p g f)).countP q + (if q a then 1 else 0)
      = (allEntries s).countP q + (if q (f a) then 1 else 0) := by
  obtain ⟨-, -, -, -, l1, l2, hsp, hup⟩ := updateFound_split f h
  rw [hsp, hup]
  simp only [List.countP_append, List.countP_cons]
  by_cases h1 : q a
  · by_cases h2 : q (f a) <;> simp [h1, h2] <;> omega
  · by_cases h2 : q (f a) <;> simp [h1, h2] <;> omega

/-- Entries after an `updateFound` are old entries or the rewritten one. -/
theorem mem_updateFound {s : DeleterState} {p : Int} {g : String}
    {a : DeleteInfo} (f : DeleteInfo → DeleteInfo)
    (h : find_delete_info s p g = some a) {e : DeleteInfo}
    (he : e ∈ allEntries (updateFound s p g f)) :
    e ∈ allEntries s ∨ e = f a := by
  obtain ⟨-, -, -, -, l1, l2, hsp, hup⟩ := updateFound_split f h
  rw [hup] at he
  rw [hsp]
  simp only [List.mem_append, List.mem_cons] at he ⊢
  tauto

/-- Claiming the next pending request permutes the union, so all entry
counts are unchanged. -/
theorem countP_take (q : DeleteInfo → Bool) (s : DeleterState)
    (h : s.delete_queue ≠ []) (ha : s.active_delete = none) :
    (allEntries (take_next s)).countP q = (allEntries s).countP q := by
  unfold take_next allEntries
  rw [ha]
  conv_rhs => rw [← List.dropLast_append_getLast h]
  rw [List.getLast?_eq_getLast _ h]
  simp [List.countP_append, List.countP_cons, Option.toList]
  omega

/-- Entries after `take_next` were entries before. -/
theorem mem_take (s : DeleterState) (h : s.delete_queue ≠ [])
    (ha : s.active_delete = none) {e : DeleteInfo}
    (he : e ∈ allEntries (take_next s)) : e ∈ allEntries s := by
  simp only [take_next, allEntries] at he
  rw [List.getLast?_eq_getLast _ h] at he
  simp only [Option.toList, List.cons_append, List.nil_append,
    List.mem_append, List.mem_cons] at he
  unfold allEntries
  rw [ha]
  simp only [Option.toList, List.nil_append, List.mem_append]
  rcases he with he | he | he
  · exact Or.inl (he ▸ List.getLast_mem h)
  · exact Or.inl (List.dropLast_subset _ he)
  · exact Or.inr he

/-! ### Equations of the operations, by branch -/

theorem notify_of_some {d : DeleteInfo} {cb : Nat} (r : Int)
    (h : d.on_delete = some cb) :
    d.notify r = ({ d with on_delete := none }, [Event.complete cb r]) := by
  unfold DeleteInfo.notify
  rw [h]

theorem notify_of_none {d : DeleteInfo} (r : Int) (h : d.on_delete = none) :
    d.notify r = (d, []) := by
  unfold DeleteInfo.notify
  rw [h]

theorem schedule_found {s : DeleterState} {p : Int} {g : String} {io : Bool}
    {a : DeleteInfo} (hf : find_delete_info s p g = some a) :
    schedule_image_delete s p g io
      = if io then
          (updateFound s p g (fun d => { d with ignore_orphaned := true }), [])
        else (s, []) := by
  unfold schedule_image_delete
  rw [hf]

theorem schedule_not_found {s : DeleterState} {p : Int} {g : String}
    {io : Bool} (hf : find_delete_info s p g = none) :
    schedule_image_delete s p g io
      = ({ s with
            delete_queue := newEntry s.next_uid p g io :: s.delete_queue,
            next_uid := s.next_uid + 1 },
         [Event.signal]) := by
  unfold schedule_image_delete newEntry
  rw [hf]

theorem wait_not_found {s : DeleterState} {p : Int} {g : String}
    {nofr : Bool} (hf : find_delete_info s p g = none) :
    wait_for_scheduled_deletion s p g nofr
      = ({ s with next_uid := s.next_uid + 1 },
         [Event.complete s.next_uid 0]) := by
  unfold wait_for_scheduled_deletion
  rw [hf]

theorem wait_found {s : DeleterState} {p : Int} {g : String} {nofr : Bool}
    {a : DeleteInfo} (hf : find_delete_info s p g = some a) :
    wait_for_scheduled_deletion s p g nofr
      = (updateFound { s with next_uid := s.next_uid + 1 } p g
          (fun e => { e with on_delete := some s.next_uid,
                             notify_on_failed_retry := nofr }),
         match a.on_delete with
         | some old => [Event.complete old (-ESTALE)]
         | none => []) := by
  unfold wait_for_scheduled_deletion
  rw [hf]

theorem cancel_not_found {s : DeleterState} {p : Int} {g : String}
    (hf : find_delete_info s p g = none) : cancel_waiter s p g = (s, []) := by
  unfold cancel_waiter
  rw [hf]

theorem cancel_found_no_waiter {s : DeleterState} {p : Int} {g : String}
    {a : DeleteInfo} (hf : find_delete_info s p g = some a)
    (hs : a.on_delete = none) : cancel_waiter s p g = (s, []) := by
  unfold cancel_waiter
  rw [hf]
  simp only []
  rw [hs]

theorem cancel_found_waiter {s : DeleterState} {p : Int} {g : String}
    {a : DeleteInfo} {cb : Nat} (hf : find_delete_info s p g = some a)
    (hs : a.on_delete = some cb) :
    cancel_waiter s p g
      = (updateFound s p g (fun e => { e with on_delete := none }),
         [Event.complete cb (-ECANCELED)]) := by
  unfold cancel_waiter
  rw [hf]
  simp only []
  rw [hs]

theorem complete_active_of_none {s : DeleterState} (r : Int)
    (ha : s.active_delete = none) : complete_active_delete s r = (s, []) := by
  unfold complete_active_delete
  rw [ha]

theorem complete_active_of_some {s : DeleterState} {d : DeleteInfo} (r : Int)
    (ha : s.active_delete = some d) :
    complete_active_delete s r
      = ({ s with active_delete := none }, (d.notify r).2) := by
  unfold complete_active_delete
  rw [ha]

theorem enqueue_blacklisted {s : DeleterState} {c : Int}
    (hc : c = -EBLACKLISTED) :
    enqueue_failed_delete s c = complete_active_delete s c := by
  unfold enqueue_failed_delete
  rw [if_pos hc]

theorem enqueue_of_none {s : DeleterState} {c : Int} (hc : c ≠ -EBLACKLISTED)
    (ha : s.active_delete = none) : enqueue_failed_delete s c = (s, []) := by
  unfold enqueue_failed_delete
  rw [if_neg hc, ha]

theorem enqueue_of_some {s : DeleterState} {c : Int} {d : DeleteInfo}
    (hc : c ≠ -EBLACKLISTED) (ha : s.active_delete = some d) :
    enqueue_failed_delete s c
      = ({ s with
            active_delete := none,
            failed_queue :=
              { (if d.notify_on_failed_retry then (d.notify c).1 else d) with
                  error_code := c } :: s.failed_queue,
            timer_count :=
              if s.failed_queue.isEmpty then s.timer_count + 1
              else s.timer_count },
         if d.notify_on_failed_retry then (d.notify c).2 else []) := by
  unfold enqueue_failed_delete
  rw [if_neg hc, ha]

theorem process_nonneg {s : DeleterState} {r : Int} (er : ErrorResult)
    (hr : ¬r < 0) :
    process_image_delete s r er
      = ((complete_active_delete s 0).1,
         (complete_active_delete s 0).2, true) := by
  unfold process_image_delete
  rw [if_neg hr]

theorem process_complete_eq {s : DeleterState} {r : Int} (hr : r < 0) :
    process_image_delete s r ErrorResult.complete
      = ((complete_active_delete s r).1,
         (complete_active_delete s r).2, true) := by
  unfold process_image_delete
  rw [if_pos hr]

theorem process_retry_of_some {s : DeleterState} {r : Int} {d : DeleteInfo}
    (hr : r < 0) (ha : s.active_delete = some d) :
    process_image_delete s r ErrorResult.retryImmediately
      = ({ s with
            active_delete := none,
            delete_queue := (d.notify r).1 :: s.delete_queue },
         (d.notify r).2, false) := by
  unfold process_image_delete
  rw [if_pos hr]
  simp only []
  rw [ha]

theorem process_retry_of_none {s : DeleterState} {r : Int} (hr : r < 0)
    (ha : s.active_delete = none) :
    process_image_delete s r ErrorResult.retryImmediately = (s, [], false) := by
  unfold process_image_delete
  rw [if_pos hr]
  simp only []
  rw [ha]

theorem process_other_eq {s : DeleterState} {r : Int} (hr : r < 0) :
    process_image_delete s r ErrorResult.other
      = ((enqueue_failed_delete s r).1,
         (enqueue_failed_delete s r).2, true) := by
  unfold process_image_delete
  rw [if_pos hr]

theorem retry_failed_deletions_eq (s : DeleterState) :
    retry_failed_deletions s
      = ({ s with
            delete_queue :=
              s.delete_queue ++ s.failed_queue.reverse.map
                (fun d => { d with retries := d.retries + 1 }),
            failed_queue := [] },
         if s.failed_queue.isEmpty then [] else [Event.signal]) := by
  unfold retry_failed_deletions
  rw [retry_drain_eq]

@[simp] theorem newEntry_uid (n : Nat) (p : Int) (g : String) (io : Bool) :
    (newEntry n p g io).uid = n := rfl

@[simp] theorem newEntry_on_delete (n : Nat) (p : Int) (g : String)
    (io : Bool) : (newEntry n p g io).on_delete = none := rfl

theorem newEntry_matchId (n : Nat) (p : Int) (g : String) (io : Bool)
    (p' : Int) (g' : String) :
    (newEntry n p g io).matchId p' g' = (decide (p = p') && decide (g = g')) := by
  simp [newEntry, DeleteInfo.matchId]

/-! ### The reachability invariant -/

/-- Invariant tying a reachable state to its trace: (pool, image)
deduplication, uid uniqueness and freshness, single-shot callback ids,
and the retry-timer guard. -/
structure Inv (s : DeleterState) (tr : List Event) : Prop where
  match_once : ∀ p g, matchCount s p g ≤ 1
  uid_once : ∀ u, uidCount s u ≤ 1
  uid_bound : ∀ e ∈ allEntries s, e.uid < s.next_uid
  cb_once : ∀ i, slotCount s i + (firedIds tr).count i ≤ 1
  cb_bound : ∀ i, 0 < slotCount s i + (firedIds tr).count i → i < s.next_uid
  timer_eq : s.timer_count = if s.failed_queue.isEmpty then 0 else 1

theorem Inv_init : Inv initState [] := by
  constructor <;> simp [matchCount, uidCount, slotCount, allEntries,
    initState, firedIds]

/-- An `updateFound` whose rewrite preserves the counted property
preserves every count. -/
theorem countP_updateFound_eq {s : DeleterState} {p : Int} {g : String}
    {a : DeleteInfo} (q : DeleteInfo → Bool) (f : DeleteInfo → DeleteInfo)
    (h : find_delete_info s p g = some a) (hq : q (f a) = q a) :
    (allEntries (updateFound s p g f)).countP q = (allEntries s).countP q := by
  have hc := countP_updateFound q f h
  rw [hq] at hc
  omega

theorem countP_push_front (q : DeleteInfo → Bool) (s : DeleterState)
    (e : DeleteInfo) (n : Nat) :
    (allEntries { s with delete_queue := e :: s.delete_queue,
                         next_uid := n }).countP q
      = (allEntries s).countP q + (if q e then 1 else 0) := by
  unfold allEntries
  simp only [List.countP_append, List.countP_cons]
  by_cases hq : q e <;> simp [hq] <;> omega

theorem mem_push_front {s : DeleterState} {e e' : DeleteInfo} {n : Nat} :
    e' ∈ allEntries { s with delete_queue := e :: s.delete_queue,
                             next_uid := n }
      ↔ e' = e ∨ e' ∈ allEntries s := by
  unfold allEntries
  simp only [List.mem_append, List.mem_cons]
  tauto

/-- `find_delete_info` missing means a zero match count. -/
theorem slotCount_push_front (s : DeleterState) (e : DeleteInfo) (n : Nat)
    (he : e.on_delete = none) (i : Nat) :
    slotCount { s with delete_queue := e :: s.delete_queue, next_uid := n } i
      = slotCount s i := by
  unfold slotCount
  rw [countP_push_front]
  simp [he]

theorem matchCount_eq_zero_of_not_found {s : DeleterState} {p : Int}
    {g : String} (hf : find_delete_info s p g = none) :
    matchCount s p g = 0 := by
  unfold matchCount
  rw [List.countP_eq_zero]
  intro d hd
  simp [find_delete_info_eq_none.mp hf d hd]

/-- No entry of a state can carry an unassigned uid. -/
theorem uidCount_next_eq_zero {s : DeleterState} {tr : List Event}
    (hI : Inv s tr) {u : Nat} (hu : s.next_uid ≤ u) :
    (allEntries s).countP (fun d => d.uid = u) = 0 := by
  rw [List.countP_eq_zero]
  intro d hd
  have := hI.uid_bound d hd
  simp only [decide_eq_true_eq]
  omega

/-- No slot of a state can hold an unassigned callback id. -/
theorem slotCount_next_eq_zero {s : DeleterState} {tr : List Event}
    (hI : Inv s tr) {i : Nat} (hi : s.next_uid ≤ i) :
    slotCount s i = 0 := by
  by_contra h
  have := hI.cb_bound i (by omega)
  omega

theorem Inv_schedule {s : DeleterState} {tr : List Event} (hI : Inv s tr)
    (p : Int) (g : String) (io : Bool) :
    Inv (schedule_image_delete s p g io).1
        (tr ++ (schedule_image_delete s p g io).2) := by
  cases hf : find_delete_info s p g with
  | some a =>
      rw [schedule_found hf]
      by_cases hio : io
      · rw [if_pos hio]
        obtain ⟨ht, hn, hdl, hfl, l1, l2, hsp, hup⟩ :=
          updateFound_split (fun d => { d with ignore_orphaned := true }) hf
        simp only [List.append_nil]
        refine ⟨?_, ?_, ?_, ?_, ?_, ?_⟩
        · intro p' g'
          unfold matchCount
          rw [countP_updateFound_eq _ _ hf rfl]
          exact hI.match_once p' g'
        · intro u
          unfold uidCount
          rw [countP_updateFound_eq _ _ hf rfl]
          exact hI.uid_once u
        · intro e he
          rw [hn]
          rcases mem_updateFound _ hf he with h | h
          · exact hI.uid_bound e h
          · subst h
            exact hI.uid_bound a (find_delete_info_eq_some hf).1
        · intro i
          unfold slotCount
          rw [countP_updateFound_eq _ _ hf rfl]
          exact hI.cb_once i
        · intro i hpos
          unfold slotCount at hpos
          rw [countP_updateFound_eq _ _ hf rfl] at hpos
          rw [hn]
          exact hI.cb_bound i hpos
        · rw [ht, isEmpty_eq_of_length_eq hfl]
          exact hI.timer_eq
      · rw [if_neg hio]
        simpa using hI
  | none =>
      rw [schedule_not_found hf]
      simp only []
      refine ⟨?_, ?_, ?_, ?_, ?_, ?_⟩
      · intro p' g'
        unfold matchCount
        rw [countP_push_front]
        rw [newEntry_matchId]
        by_cases hp : p = p'
        · by_cases hg : g = g'
          · subst hp; subst hg
            have h0 := matchCount_eq_zero_of_not_found hf
            unfold matchCount at h0
            simp [h0]
          · simp only [decide_eq_true_eq, hg, decide_False,
              Bool.and_false, if_false, Nat.add_zero]
            simpa using hI.match_once p' g'
        · simp only [decide_eq_true_eq, hp, decide_False,
            Bool.false_and, if_false, Nat.add_zero]
          simpa using hI.match_once p' g'
      · intro u
        unfold uidCount
        rw [countP_push_front]
        by_cases hu : u = s.next_uid
        · subst hu
          rw [uidCount_next_eq_zero hI (Nat.le_refl _)]
          simp
        · have hne : ((newEntry s.next_uid p g io).uid = u) = False := by
            simp [Ne.symm hu]
          simp only [hne, decide_False, if_false, Nat.add_zero]
          simpa using hI.uid_once u
      · intro e he
        rcases mem_push_front.mp he with h | h
        · subst h
          simp
        · have := hI.uid_bound e h
          simp only []
          omega
      · intro i
        rw [slotCount_push_front _ _ _ (newEntry_on_delete s.next_uid p g io) i]
        simp only [firedIds_append, firedIds_signal, firedIds_nil,
          List.append_nil]
        exact hI.cb_once i
      · intro i hpos
        rw [slotCount_push_front _ _ _ (newEntry_on_delete s.next_uid p g io) i]
          at hpos
        simp only [firedIds_append, firedIds_signal, firedIds_nil,
          List.append_nil] at hpos
        have := hI.cb_bound i hpos
        simp only []
        omega
      · simp only []
        exact hI.timer_eq

theorem countP_pos_of_mem {l : List DeleteInfo} {a : DeleteInfo}
    {q : DeleteInfo → Bool} (ha : a ∈ l) (hq : q a = true) :
    0 < l.countP q :=
  List.countP_pos.mpr ⟨a, ha, hq⟩

/-- `allEntries` ignores the freshness counter. -/
theorem allEntries_next (s : DeleterState) (n : Nat) :
    allEntries { s with next_uid := n } = allEntries s := rfl

/-- At `i = s.next_uid` both the slot count and the fired count vanish. -/
theorem counts_at_next {s : DeleterState} {tr : List Event} (hI : Inv s tr) :
    slotCount s s.next_uid = 0
      ∧ (firedIds tr).count s.next_uid = 0 := by
  have h := hI.cb_bound s.next_uid
  by_cases hp : 0 < slotCount s s.next_uid + (firedIds tr).count s.next_uid
  · have := h hp
    omega
  · omega
theorem ite_decide_pos {P : Prop} [Decidable P] (h : P) (n m : Nat) :
    (if decide P = true then n else m) = n := by simp [h]

theorem ite_decide_neg {P : Prop} [Decidable P] (h : ¬P) (n m : Nat) :
    (if decide P = true then n else m) = m := by simp [h]

theorem Inv_wait {s : DeleterState} {tr : List Event} (hI : Inv s tr)
    (p : Int) (g : String) (nofr : Bool) :
    Inv (wait_for_scheduled_deletion s p g nofr).1
        (tr ++ (wait_for_scheduled_deletion s p g nofr).2) := by
  cases hf : find_delete_info s p g with
  | none =>
      rw [wait_not_found hf]
      simp only []
      obtain ⟨hs0, hf0⟩ := counts_at_next hI
      refine ⟨?_, ?_, ?_, ?_, ?_, ?_⟩
      · intro p' g'
        unfold matchCount
        rw [allEntries_next]
        exact hI.match_once p' g'
      · intro u
        unfold uidCount
        rw [allEntries_next]
        exact hI.uid_once u
      · intro e he
        rw [allEntries_next] at he
        have := hI.uid_bound e he
        simp only []
        omega
      · intro i
        unfold slotCount at hs0 ⊢
        rw [allEntries_next]
        have h1 := hI.cb_once i
        unfold slotCount at h1
        simp only [firedIds_append, firedIds_complete, firedIds_nil,
          List.count_append]
        by_cases hi : i = s.next_uid
        · subst hi
          rw [List.count_cons_self, List.count_nil]
          omega
        · rw [List.count_cons_of_ne hi, List.count_nil]
          omega
      · intro i hpos
        simp only []
        unfold slotCount at hpos
        rw [allEntries_next] at hpos
        simp only [firedIds_append, firedIds_complete, firedIds_nil,
          List.count_append] at hpos
        by_cases hi : i = s.next_uid
        · omega
        · rw [List.count_cons_of_ne hi, List.count_nil] at hpos
          have := hI.cb_bound i (by unfold slotCount; omega)
          omega
      · simp only []
        exact hI.timer_eq
  | some a =>
      rw [wait_found hf]
      have hf' : find_delete_info { s with next_uid := s.next_uid + 1 } p g
          = some a := hf
      obtain ⟨ht, hn, hdl, hfl, l1, l2, hsp, hup⟩ :=
        updateFound_split
          (fun e => { e with on_delete := some s.next_uid,
                             notify_on_failed_retry := nofr }) hf'
      rw [allEntries_next] at hsp
      obtain ⟨hs0, hf0⟩ := counts_at_next hI
      refine ⟨?_, ?_, ?_, ?_, ?_, ?_⟩
      · intro p' g'
        unfold matchCount
        rw [countP_updateFound_eq _ _ hf' rfl]
        rw [allEntries_next]
        exact hI.match_once p' g'
      · intro u
        unfold uidCount
        rw [countP_updateFound_eq _ _ hf' rfl]
        rw [allEntries_next]
        exact hI.uid_once u
      · intro e he
        rw [hn]
        rcases mem_updateFound _ hf' he with h | h
        · rw [allEntries_next] at h
          have := hI.uid_bound e h
          simp only []
          omega
        · subst h
          have := hI.uid_bound a (find_delete_info_eq_some hf).1
          simp only []
          omega
      · intro i
        have h1 := hI.cb_once i
        unfold slotCount at h1 hs0 ⊢
        simp only []
        rw [hup]
        rw [hsp] at h1 hs0
        simp only [List.countP_append, List.countP_cons] at h1 hs0 ⊢
        cases hod : a.on_delete with
        | some old =>
            have hoLt : old < s.next_uid := by
              have hso : 0 < (allEntries s).countP
                  (fun d => d.on_delete = some old) :=
                countP_pos_of_mem (find_delete_info_eq_some hf).1
                  (by simp [hod])
              exact hI.cb_bound old (by unfold slotCount; omega)
            rw [hod] at h1 hs0
            simp only [firedIds_append, firedIds_complete, firedIds_nil,
              List.count_append]
            by_cases hi : i = s.next_uid
            · rw [hi]
              rw [ite_decide_pos rfl]
              rw [List.count_cons_of_ne (by omega), List.count_nil]
              rw [ite_decide_neg (show
                ¬((some old : Option Nat) = some s.next_uid) by
                  simp; omega)] at hs0
              omega
            · by_cases hio : i = old
              · have h2 := hI.cb_once old
                unfold slotCount at h2
                rw [hsp] at h2
                simp only [List.countP_append, List.countP_cons, hod] at h2
                rw [ite_decide_pos trivial] at h2
                rw [hio]
                rw [ite_decide_neg (show
                  ¬((some s.next_uid : Option Nat) = some old) by
                    simp; omega)]
                rw [List.count_cons_self, List.count_nil]
                omega
              · rw [ite_decide_neg (show
                  ¬((some s.next_uid : Option Nat) = some i) by
                    simp; omega)]
                rw [List.count_cons_of_ne hio, List.count_nil]
                rw [ite_decide_neg (show
                  ¬((some old : Option Nat) = some i) by
                    simp; omega)] at h1
                omega
        | none =>
            rw [hod] at h1 hs0
            simp only [List.append_nil]
            by_cases hi : i = s.next_uid
            · rw [hi]
              rw [ite_decide_pos rfl]
              rw [ite_decide_neg (show
                ¬((none : Option Nat) = some s.next_uid) by simp)] at hs0
              omega
            · rw [ite_decide_neg (show
                ¬((some s.next_uid : Option Nat) = some i) by
                  simp; omega)]
              rw [ite_decide_neg (show
                ¬((none : Option Nat) = some i) by simp)] at h1
              omega
      · intro i hpos
        rw [hn]
        show i < s.next_uid + 1
        by_cases hi : i = s.next_uid
        · omega
        · unfold slotCount at hpos
          rw [hup] at hpos
          simp only [List.countP_append, List.countP_cons] at hpos
          cases hod : a.on_delete with
          | some old =>
              by_cases hio : i = old
              · have hso : 0 < (allEntries s).countP
                    (fun d => d.on_delete = some i) :=
                  countP_pos_of_mem (find_delete_info_eq_some hf).1
                    (by simp [hod, hio])
                have := hI.cb_bound i (by unfold slotCount; omega)
                omega
              · rw [hod] at hpos
                simp only [firedIds_append, firedIds_complete, firedIds_nil,
                  List.count_append] at hpos
                rw [ite_decide_neg (show
                  ¬((some s.next_uid : Option Nat) = some i) by
                    simp; omega)] at hpos
                rw [List.count_cons_of_ne hio, List.count_nil] at hpos
                have := hI.cb_bound i (by
                  unfold slotCount
                  rw [hsp]
                  simp only [List.countP_append, List.countP_cons, hod]
                  rw [ite_decide_neg (show
                    ¬((some old : Option Nat) = some i) by
                      simp; omega)]
                  omega)
                omega
          | none =>
              rw [hod] at hpos
              simp only [List.append_nil] at hpos
              rw [ite_decide_neg (show
                ¬((some s.next_uid : Option Nat) = some i) by
                  simp; omega)] at hpos
              have := hI.cb_bound i (by
                unfold slotCount
                rw [hsp]
                simp only [List.countP_append, List.countP_cons, hod]
                rw [ite_decide_neg (show
                  ¬((none : Option Nat) = some i) by simp)]
                omega)
              omega
      · rw [ht, isEmpty_eq_of_length_eq hfl]
        simp only []
        exact hI.timer_eq

theorem Inv_cancel {s : DeleterState} {tr : List Event} (hI : Inv s tr)
    (p : Int) (g : String) :
    Inv (cancel_waiter s p g).1 (tr ++ (cancel_waiter s p g).2) := by
  cases hf : find_delete_info s p g with
  | none =>
      rw [cancel_not_found hf]
      simpa using hI
  | some a =>
      cases hod : a.on_delete with
      | none =>
          rw [cancel_found_no_waiter hf hod]
          simpa using hI
      | some cb =>
          rw [cancel_found_waiter hf hod]
          obtain ⟨ht, hn, hdl, hfl, l1, l2, hsp, hup⟩ :=
            updateFound_split (fun e => { e with on_delete := none }) hf
          have hcLt : cb < s.next_uid := by
            have hsc : 0 < (allEntries s).countP
                (fun d => d.on_delete = some cb) :=
              countP_pos_of_mem (find_delete_info_eq_some hf).1
                (by simp [hod])
            exact hI.cb_bound cb (by unfold slotCount; omega)
          refine ⟨?_, ?_, ?_, ?_, ?_, ?_⟩
          · intro p' g'
            unfold matchCount
            simp only []
            rw [countP_updateFound_eq _ _ hf rfl]
            exact hI.match_once p' g'
          · intro u
            unfold uidCount
            simp only []
            rw [countP_updateFound_eq _ _ hf rfl]
            exact hI.uid_once u
          · intro e he
            simp only [] at he
            rw [hn]
            rcases mem_updateFound _ hf he with h | h
            · exact hI.uid_bound e h
            · subst h
              exact hI.uid_bound a (find_delete_info_eq_some hf).1
          · intro i
            have h1 := hI.cb_once i
            unfold slotCount at h1 ⊢
            simp only []
            rw [hup]
            rw [hsp] at h1
            simp only [List.countP_append, List.countP_cons, hod,
              firedIds_append, firedIds_complete, firedIds_nil,
              List.count_append] at h1 ⊢
            by_cases hic : i = cb
            · rw [hic]
              rw [ite_decide_neg (show
                ¬((none : Option Nat) = some cb) by simp)]
              rw [List.count_cons_self, List.count_nil]
              rw [hic] at h1
              rw [ite_decide_pos rfl] at h1
              omega
            · rw [ite_decide_neg (show
                ¬((none : Option Nat) = some i) by simp)]
              rw [List.count_cons_of_ne hic, List.count_nil]
              rw [ite_decide_neg (show
                ¬((some cb : Option Nat) = some i) by
                  simp; exact fun h => hic h.symm)] at h1
              omega
          · intro i hpos
            rw [hn]
            unfold slotCount at hpos
            simp only [] at hpos
            rw [hup] at hpos
            simp only [List.countP_append, List.countP_cons, hod,
              firedIds_append, firedIds_complete, firedIds_nil,
              List.count_append] at hpos
            by_cases hic : i = cb
            · omega
            · rw [ite_decide_neg (show
                ¬((none : Option Nat) = some i) by simp)] at hpos
              rw [List.count_cons_of_ne hic, List.count_nil] at hpos
              exact hI.cb_bound i (by
                unfold slotCount
                rw [hsp]
                simp only [List.countP_append, List.countP_cons, hod]
                rw [ite_decide_neg (show
                  ¬((some cb : Option Nat) = some i) by
                    simp; exact fun h => hic h.symm)]
                omega)
          · simp only []
            rw [ht, isEmpty_eq_of_length_eq hfl]
            exact hI.timer_eq
theorem allEntries_of_active_some {s : DeleterState} {d : DeleteInfo}
    (ha : s.active_delete = some d) :
    allEntries s = d :: (s.delete_queue ++ s.failed_queue) := by
  unfold allEntries
  rw [ha]
  rfl

theorem allEntries_clear_active (s : DeleterState) :
    allEntries { s with active_delete := none }
      = s.delete_queue ++ s.failed_queue := rfl

theorem allEntries_retry_push (s : DeleterState) (n1 : DeleteInfo) :
    allEntries { s with active_delete := none,
                        delete_queue := n1 :: s.delete_queue }
      = n1 :: (s.delete_queue ++ s.failed_queue) := rfl

@[simp] theorem matchId_clear_slot (d : DeleteInfo) (p : Int) (g : String) :
    ({ d with on_delete := none } : DeleteInfo).matchId p g
      = d.matchId p g := rfl

/-- Invariant preservation by `complete_active_delete`. -/
theorem Inv_complete_active {s : DeleterState} {tr : List Event}
    (hI : Inv s tr) (r : Int) :
    Inv (complete_active_delete s r).1
        (tr ++ (complete_active_delete s r).2) := by
  cases ha : s.active_delete with
  | none =>
      rw [complete_active_of_none r ha]
      simpa using hI
  | some d =>
      rw [complete_active_of_some r ha]
      simp only []
      have hAE := allEntries_of_active_some ha
      cases hod : d.on_delete with
      | none =>
          rw [notify_of_none r hod]
          simp only [List.append_nil]
          refine ⟨?_, ?_, ?_, ?_, ?_, ?_⟩
          · intro p' g'
            have h1 := hI.match_once p' g'
            unfold matchCount at h1 ⊢
            rw [allEntries_clear_active]
            rw [hAE, List.countP_cons] at h1
            omega
          · intro u
            have h1 := hI.uid_once u
            unfold uidCount at h1 ⊢
            rw [allEntries_clear_active]
            rw [hAE, List.countP_cons] at h1
            omega
          · intro e he
            rw [allEntries_clear_active] at he
            refine hI.uid_bound e ?_
            rw [hAE]
            exact List.mem_cons_of_mem _ he
          · intro i
            have h1 := hI.cb_once i
            unfold slotCount at h1 ⊢
            rw [allEntries_clear_active]
            rw [hAE, List.countP_cons] at h1
            omega
          · intro i hpos
            unfold slotCount at hpos
            rw [allEntries_clear_active] at hpos
            refine hI.cb_bound i ?_
            unfold slotCount
            rw [hAE, List.countP_cons]
            omega
          · exact hI.timer_eq
      | some cb =>
          rw [notify_of_some r hod]
          simp only []
          have hcLt : cb < s.next_uid := by
            have hsc : 0 < (allEntries s).countP
                (fun e => e.on_delete = some cb) :=
              countP_pos_of_mem
                (by rw [hAE]; exact List.mem_cons_self d _)
                (by simp [hod])
            exact hI.cb_bound cb (by unfold slotCount; omega)
          refine ⟨?_, ?_, ?_, ?_, ?_, ?_⟩
          · intro p' g'
            have h1 := hI.match_once p' g'
            unfold matchCount at h1 ⊢
            rw [allEntries_clear_active]
            rw [hAE, List.countP_cons] at h1
            omega
          · intro u
            have h1 := hI.uid_once u
            unfold uidCount at h1 ⊢
            rw [allEntries_clear_active]
            rw [hAE, List.countP_cons] at h1
            omega
          · intro e he
            rw [allEntries_clear_active] at he
            refine hI.uid_bound e ?_
            rw [hAE]
            exact List.mem_cons_of_mem _ he
          · intro i
            have h1 := hI.cb_once i
            unfold slotCount at h1 ⊢
            rw [allEntries_clear_active]
            rw [hAE, List.countP_cons] at h1
            simp only [firedIds_append, firedIds_complete, firedIds_nil,
              List.count_append]
            by_cases hic : i = cb
            · rw [hic]
              rw [List.count_cons_self, List.count_nil]
              rw [ite_decide_pos (hic ▸ hod : d.on_delete = some i)] at h1
              rw [hic] at h1
              omega
            · rw [List.count_cons_of_ne hic, List.count_nil]
              rw [ite_decide_neg (show ¬(d.on_delete = some i) by
                rw [hod]
                simp
                exact fun h => hic h.symm)] at h1
              omega
          · intro i hpos
            show i < s.next_uid
            unfold slotCount at hpos
            rw [allEntries_clear_active] at hpos
            simp only [firedIds_append, firedIds_complete, firedIds_nil,
              List.count_append] at hpos
            by_cases hic : i = cb
            · omega
            · rw [List.count_cons_of_ne hic, List.count_nil] at hpos
              refine hI.cb_bound i ?_
              unfold slotCount
              rw [hAE, List.countP_cons]
              omega
          · exact hI.timer_eq

/-- Invariant preservation by the retry-immediate re-push. -/
theorem Inv_retry_push {s : DeleterState} {tr : List Event} (hI : Inv s tr)
    (r : Int) {d : DeleteInfo} (ha : s.active_delete = some d) :
    Inv { s with active_delete := none,
                 delete_queue := (d.notify r).1 :: s.delete_queue }
        (tr ++ (d.notify r).2) := by
  have hAE := allEntries_of_active_some ha
  cases hod : d.on_delete with
  | none =>
      rw [notify_of_none r hod]
      simp only [List.append_nil]
      refine ⟨?_, ?_, ?_, ?_, ?_, ?_⟩
      · intro p' g'
        have h1 := hI.match_once p' g'
        unfold matchCount at h1 ⊢
        rw [allEntries_retry_push]
        rw [hAE] at h1
        exact h1
      · intro u
        have h1 := hI.uid_once u
        unfold uidCount at h1 ⊢
        rw [allEntries_retry_push]
        rw [hAE] at h1
        exact h1
      · intro e he
        rw [allEntries_retry_push] at he
        show e.uid < s.next_uid
        refine hI.uid_bound e ?_
        rw [hAE]
        exact he
      · intro i
        have h1 := hI.cb_once i
        unfold slotCount at h1 ⊢
        rw [allEntries_retry_push]
        rw [hAE] at h1
        exact h1
      · intro i hpos
        show i < s.next_uid
        unfold slotCount at hpos
        rw [allEntries_retry_push] at hpos
        refine hI.cb_bound i ?_
        unfold slotCount
        rw [hAE]
        exact hpos
      · exact hI.timer_eq
  | some cb =>
      rw [notify_of_some r hod]
      simp only []
      have hcLt : cb < s.next_uid := by
        have hsc : 0 < (allEntries s).countP
            (fun e => e.on_delete = some cb) :=
          countP_pos_of_mem
            (by rw [hAE]; exact List.mem_cons_self d _)
            (by simp [hod])
        exact hI.cb_bound cb (by unfold slotCount; omega)
      refine ⟨?_, ?_, ?_, ?_, ?_, ?_⟩
      · intro p' g'
        have h1 := hI.match_once p' g'
        unfold matchCount at h1 ⊢
        rw [allEntries_retry_push]
        rw [hAE] at h1
        rw [List.countP_cons] at h1 ⊢
        simp only [matchId_clear_slot]
        omega
      · intro u
        have h1 := hI.uid_once u
        unfold uidCount at h1 ⊢
        rw [allEntries_retry_push]
        rw [hAE] at h1
        rw [List.countP_cons] at h1 ⊢
        simp only []
        omega
      · intro e he
        rw [allEntries_retry_push] at he
        show e.uid < s.next_uid
        rcases List.mem_cons.mp he with h | h
        · subst h
          have := hI.uid_bound d (by rw [hAE]; exact List.mem_cons_self d _)
          simpa using this
        · exact hI.uid_bound e (by rw [hAE]; exact List.mem_cons_of_mem _ h)
      · intro i
        have h1 := hI.cb_once i
        unfold slotCount at h1 ⊢
        rw [allEntries_retry_push]
        rw [hAE] at h1
        rw [List.countP_cons] at h1 ⊢
        simp only [firedIds_append, firedIds_complete, firedIds_nil,
          List.count_append]
        by_cases hic : i = cb
        · rw [hic]
          rw [List.count_cons_self, List.count_nil]
          rw [ite_decide_neg (show
            ¬(({ d with on_delete := none } : DeleteInfo).on_delete
              = some cb) by simp)]
          rw [hic] at h1
          rw [ite_decide_pos hod] at h1
          omega
        · rw [List.count_cons_of_ne hic, List.count_nil]
          rw [ite_decide_neg (show
            ¬(({ d with on_delete := none } : DeleteInfo).on_delete
              = some i) by simp)]
          rw [ite_decide_neg (show ¬(d.on_delete = some i) by
            rw [hod]
            simp
            exact fun h => hic h.symm)] at h1
          omega
      · intro i hpos
        show i < s.next_uid
        unfold slotCount at hpos
        rw [allEntries_retry_push] at hpos
        rw [List.countP_cons] at hpos
        rw [ite_decide_neg (show
          ¬(({ d with on_delete := none } : DeleteInfo).on_delete
            = some i) by simp)] at hpos
        simp only [firedIds_append, firedIds_complete, firedIds_nil,
          List.count_append] at hpos
        by_cases hic : i = cb
        · omega
        · rw [List.count_cons_of_ne hic, List.count_nil] at hpos
          refine hI.cb_bound i ?_
          unfold slotCount
          rw [hAE, List.countP_cons]
          omega
      · exact hI.timer_eq

@[simp] theorem matchId_set_error (d : DeleteInfo) (c : Int) (p : Int)
    (g : String) :
    ({ d with error_code := c } : DeleteInfo).matchId p g = d.matchId p g :=
  rfl

theorem allEntries_enqueue_push (s : DeleterState) (d2 : DeleteInfo)
    (tc : Nat) :
    allEntries { s with active_delete := none,
                        failed_queue := d2 :: s.failed_queue,
                        timer_count := tc }
      = s.delete_queue ++ (d2 :: s.failed_queue) := rfl

theorem enqueue_of_some_quiet {s : DeleterState} {c : Int} {d : DeleteInfo}
    (hc : c ≠ -EBLACKLISTED) (ha : s.active_delete = some d)
    (hn : d.notify_on_failed_retry = false) :
    enqueue_failed_delete s c
      = ({ s with
            active_delete := none,
            failed_queue := { d with error_code := c } :: s.failed_queue,
            timer_count :=
              if s.failed_queue.isEmpty then s.timer_count + 1
              else s.timer_count },
         []) := by
  rw [enqueue_of_some hc ha, hn]
  simp [hn]

theorem enqueue_of_some_notify {s : DeleterState} {c : Int} {d : DeleteInfo}
    (hc : c ≠ -EBLACKLISTED) (ha : s.active_delete = some d)
    (hn : d.notify_on_failed_retry = true) :
    enqueue_failed_delete s c
      = ({ s with
            active_delete := none,
            failed_queue :=
              { (d.notify c).1 with error_code := c } :: s.failed_queue,
            timer_count :=
              if s.failed_queue.isEmpty then s.timer_count + 1
              else s.timer_count },
         (d.notify c).2) := by
  rw [enqueue_of_some hc ha, hn]
  simp [hn]

/-- Invariant preservation by `enqueue_failed_delete` on a non-blacklisted
error. -/
theorem Inv_enqueue {s : DeleterState} {tr : List Event} (hI : Inv s tr)
    {c : Int} (hc : c ≠ -EBLACKLISTED) :
    Inv (enqueue_failed_delete s c).1
        (tr ++ (enqueue_failed_delete s c).2) := by
  cases ha : s.active_delete with
  | none =>
      rw [enqueue_of_none hc ha]
      simpa using hI
  | some d =>
      have hAE := allEntries_of_active_some ha
      have htimer : (if s.failed_queue.isEmpty then s.timer_count + 1
            else s.timer_count)
          = 1 := by
        cases hfe : s.failed_queue.isEmpty with
        | true =>
            have := hI.timer_eq
            rw [hfe] at this
            simp at this
            simp [this]
        | false =>
            have := hI.timer_eq
            rw [hfe] at this
            simp at this
            simp [this]
      cases hnofr : d.notify_on_failed_retry with
      | false =>
          rw [enqueue_of_some_quiet hc ha hnofr]
          simp only [List.append_nil]
          refine ⟨?_, ?_, ?_, ?_, ?_, ?_⟩
          · intro p' g'
            have h1 := hI.match_once p' g'
            unfold matchCount at h1 ⊢
            rw [hAE, List.countP_cons] at h1
            rw [allEntries_enqueue_push]
            simp only [List.countP_append, List.countP_cons,
              matchId_set_error]
            simp only [List.countP_append] at h1
            omega
          · intro u
            have h1 := hI.uid_once u
            unfold uidCount at h1 ⊢
            rw [hAE, List.countP_cons] at h1
            rw [allEntries_enqueue_push]
            simp only [List.countP_append, List.countP_cons]
            simp only [List.countP_append] at h1
            omega
          · intro e he
            show e.uid < s.next_uid
            rw [allEntries_enqueue_push] at he
            simp only [List.mem_append, List.mem_cons] at he
            rcases he with he | he | he
            · exact hI.uid_bound e (by
                rw [hAE]
                simp [he])
            · subst he
              have := hI.uid_bound d (by
                rw [hAE]
                exact List.mem_cons_self d _)
              simpa using this
            · exact hI.uid_bound e (by
                rw [hAE]
                simp [he])
          · intro i
            have h1 := hI.cb_once i
            unfold slotCount at h1 ⊢
            rw [hAE, List.countP_cons] at h1
            rw [allEntries_enqueue_push]
            simp only [List.countP_append, List.countP_cons]
            simp only [List.countP_append] at h1
            omega
          · intro i hpos
            show i < s.next_uid
            unfold slotCount at hpos
            rw [allEntries_enqueue_push] at hpos
            simp only [List.countP_append, List.countP_cons] at hpos
            refine hI.cb_bound i ?_
            unfold slotCount
            rw [hAE, List.countP_cons]
            simp only [List.countP_append]
            omega
          · simp only [List.isEmpty_cons, Bool.false_eq_true, if_false]
            exact htimer
      | true =>
          rw [enqueue_of_some_notify hc ha hnofr]
          simp only []
          cases hod : d.on_delete with
          | none =>
              rw [notify_of_none c hod]
              simp only [List.append_nil]
              refine ⟨?_, ?_, ?_, ?_, ?_, ?_⟩
              · intro p' g'
                have h1 := hI.match_once p' g'
                unfold matchCount at h1 ⊢
                rw [hAE, List.countP_cons] at h1
                rw [allEntries_enqueue_push]
                simp only [List.countP_append, List.countP_cons,
                  matchId_set_error]
                simp only [List.countP_append] at h1
                omega
              · intro u
                have h1 := hI.uid_once u
                unfold uidCount at h1 ⊢
                rw [hAE, List.countP_cons] at h1
                rw [allEntries_enqueue_push]
                simp only [List.countP_append, List.countP_cons]
                simp only [List.countP_append] at h1
                omega
              · intro e he
                show e.uid < s.next_uid
                rw [allEntries_enqueue_push] at he
                simp only [List.mem_append, List.mem_cons] at he
                rcases he with he | he | he
                · exact hI.uid_bound e (by
                    rw [hAE]
                    simp [he])
                · subst he
                  have := hI.uid_bound d (by
                    rw [hAE]
                    exact List.mem_cons_self d _)
                  simpa using this
                · exact hI.uid_bound e (by
                    rw [hAE]
                    simp [he])
              · intro i
                have h1 := hI.cb_once i
                unfold slotCount at h1 ⊢
                rw [hAE, List.countP_cons] at h1
                rw [allEntries_enqueue_push]
                simp only [List.countP_append, List.countP_cons]
                simp only [List.countP_append] at h1
                omega
              · intro i hpos
                show i < s.next_uid
                unfold slotCount at hpos
                rw [allEntries_enqueue_push] at hpos
                simp only [List.countP_append, List.countP_cons] at hpos
                refine hI.cb_bound i ?_
                unfold slotCount
                rw [hAE, List.countP_cons]
                simp only [List.countP_append]
                omega
              · simp only [List.isEmpty_cons, Bool.false_eq_true, if_false]
                exact htimer
          | some cb =>
              rw [notify_of_some c hod]
              simp only []
              have hcLt : cb < s.next_uid := by
                have hsc : 0 < (allEntries s).countP
                    (fun e => e.on_delete = some cb) :=
                  countP_pos_of_mem
                    (by rw [hAE]; exact List.mem_cons_self d _)
                    (by simp [hod])
                exact hI.cb_bound cb (by unfold slotCount; omega)
              refine ⟨?_, ?_, ?_, ?_, ?_, ?_⟩
              · intro p' g'
                have h1 := hI.match_once p' g'
                unfold matchCount at h1 ⊢
                rw [hAE, List.countP_cons] at h1
                rw [allEntries_enqueue_push]
                simp only [List.countP_append, List.countP_cons,
                  DeleteInfo.matchId]
                simp only [List.countP_append, DeleteInfo.matchId] at h1
                omega
              · intro u
                have h1 := hI.uid_once u
                unfold uidCount at h1 ⊢
                rw [hAE, List.countP_cons] at h1
                rw [allEntries_enqueue_push]
                simp only [List.countP_append, List.countP_cons]
                simp only [List.countP_append] at h1
                omega
              · intro e he
                show e.uid < s.next_uid
                rw [allEntries_enqueue_push] at he
                simp only [List.mem_append, List.mem_cons] at he
                rcases he with he | he | he
                · exact hI.uid_bound e (by
                    rw [hAE]
                    simp [he])
                · subst he
                  have := hI.uid_bound d (by
                    rw [hAE]
                    exact List.mem_cons_self d _)
                  simpa using this
                · exact hI.uid_bound e (by
                    rw [hAE]
                    simp [he])
              · intro i
                have h1 := hI.cb_once i
                unfold slotCount at h1 ⊢
                rw [hAE, List.countP_cons] at h1
                rw [allEntries_enqueue_push]
                simp only [List.countP_append, List.countP_cons]
                simp only [List.countP_append] at h1
                simp only [firedIds_append, firedIds_complete, firedIds_nil,
                  List.count_append]
                by_cases hic : i = cb
                · rw [hic]
                  rw [List.count_cons_self, List.count_nil]
                  rw [ite_decide_neg (show
                    ¬((none : Option Nat) = some cb) by simp)]
                  rw [hic] at h1
                  rw [ite_decide_pos hod] at h1
                  omega
                · rw [List.count_cons_of_ne hic, List.count_nil]
                  rw [ite_decide_neg (show
                    ¬((none : Option Nat) = some i) by simp)]
                  rw [ite_decide_neg (show ¬(d.on_delete = some i) by
                    rw [hod]
                    simp
                    exact fun h => hic h.symm)] at h1
                  omega
              · intro i hpos
                show i < s.next_uid
                unfold slotCount at hpos
                rw [allEntries_enqueue_push] at hpos
                simp only [List.countP_append, List.countP_cons] at hpos
                simp only [firedIds_append, firedIds_complete, firedIds_nil,
                  List.count_append] at hpos
                by_cases hic : i = cb
                · omega
                · rw [List.count_cons_of_ne hic, List.count_nil] at hpos
                  rw [ite_decide_neg (show
                    ¬((none : Option Nat) = some i) by simp)] at hpos
                  refine hI.cb_bound i ?_
                  unfold slotCount
                  rw [hAE, List.countP_cons]
                  simp only [List.countP_append]
                  omega
              · simp only [List.isEmpty_cons, Bool.false_eq_true, if_false]
                exact htimer

theorem take_next_proj (s : DeleterState) :
    (take_next s).timer_count = s.timer_count
    ∧ (take_next s).next_uid = s.next_uid
    ∧ (take_next s).failed_queue = s.failed_queue :=
  ⟨rfl, rfl, rfl⟩

/-- Invariant preservation by the worker claiming the next request. -/
theorem Inv_take {s : DeleterState} {tr : List Event} (hI : Inv s tr)
    (h : s.delete_queue ≠ []) (ha : s.active_delete = none) :
    Inv (take_next s) tr := by
  obtain ⟨ht, hn, hfq⟩ := take_next_proj s
  refine ⟨?_, ?_, ?_, ?_, ?_, ?_⟩
  · intro p' g'
    unfold matchCount
    rw [countP_take _ _ h ha]
    exact hI.match_once p' g'
  · intro u
    unfold uidCount
    rw [countP_take _ _ h ha]
    exact hI.uid_once u
  · intro e he
    rw [hn]
    exact hI.uid_bound e (mem_take _ h ha he)
  · intro i
    unfold slotCount
    rw [countP_take _ _ h ha]
    exact hI.cb_once i
  · intro i hpos
    unfold slotCount at hpos
    rw [countP_take _ _ h ha] at hpos
    rw [hn]
    exact hI.cb_bound i hpos
  · rw [ht, hfq]
    exact hI.timer_eq

theorem fire_retry_timer_eq (s : DeleterState) :
    fire_retry_timer s
      = ({ s with
            delete_queue :=
              s.delete_queue ++ s.failed_queue.reverse.map
                (fun d => { d with retries := d.retries + 1 }),
            failed_queue := [],
            timer_count := s.timer_count - 1 },
         if s.failed_queue.isEmpty then [] else [Event.signal]) := by
  unfold fire_retry_timer
  rw [retry_failed_deletions_eq]

theorem allEntries_fire (s : DeleterState) (l : List DeleteInfo) (tc : Nat) :
    allEntries { s with delete_queue := s.delete_queue ++ l,
                        failed_queue := [], timer_count := tc }
      = s.active_delete.toList ++ (s.delete_queue ++ l) ++ [] := rfl

@[simp] theorem matchId_inc_retries (d : DeleteInfo) (p : Int) (g : String) :
    ({ d with retries := d.retries + 1 } : DeleteInfo).matchId p g
      = d.matchId p g := rfl

theorem countP_fire (q : DeleteInfo → Bool) (s : DeleterState) (tc : Nat)
    (hq : ∀ d, q { d with retries := d.retries + 1 } = q d) :
    (allEntries { s with
        delete_queue :=
          s.delete_queue ++ s.failed_queue.reverse.map
            (fun d => { d with retries := d.retries + 1 }),
        failed_queue := [], timer_count := tc }).countP q
      = (allEntries s).countP q := by
  rw [allEntries_fire]
  unfold allEntries
  simp only [List.countP_append, List.countP_map, List.countP_nil]
  have hcomp : (q ∘ fun d => { d with retries := d.retries + 1 })
      = q := by
    funext d
    exact hq d
  rw [hcomp, List.countP_reverse]
  omega

/-- Invariant preservation by the retry timer firing. -/
theorem Inv_fire {s : DeleterState} {tr : List Event} (hI : Inv s tr)
    (ht : 0 < s.timer_count) :
    Inv (fire_retry_timer s).1 (tr ++ (fire_retry_timer s).2) := by
  rw [fire_retry_timer_eq]
  simp only []
  have hfe : s.failed_queue.isEmpty = false := by
    have := hI.timer_eq
    cases hq : s.failed_queue.isEmpty with
    | true => rw [hq] at this; simp at this; omega
    | false => rfl
  have hevs : firedIds (if s.failed_queue.isEmpty then []
      else [Event.signal]) = [] := by
    rw [hfe]
    rfl
  refine ⟨?_, ?_, ?_, ?_, ?_, ?_⟩
  · intro p' g'
    unfold matchCount
    rw [countP_fire _ _ _ (fun d => matchId_inc_retries d p' g')]
    exact hI.match_once p' g'
  · intro u
    unfold uidCount
    rw [countP_fire (fun d => decide (d.uid = u)) _ _ (fun d => rfl)]
    exact hI.uid_once u
  · intro e he
    show e.uid < s.next_uid
    rw [allEntries_fire] at he
    simp only [List.append_nil] at he
    rcases List.mem_append.mp he with he | he
    · exact hI.uid_bound e (by
        unfold allEntries
        simp [List.mem_append, he])
    · rcases List.mem_append.mp he with he | he
      · exact hI.uid_bound e (by
          unfold allEntries
          simp [List.mem_append, he])
      · obtain ⟨x, hx, hxe⟩ := List.mem_map.mp he
        rw [List.mem_reverse] at hx
        subst hxe
        have := hI.uid_bound x (by
          unfold allEntries
          simp [List.mem_append, hx])
        simpa using this
  · intro i
    unfold slotCount
    rw [countP_fire (fun d => decide (d.on_delete = some i)) _ _
      (fun d => rfl)]
    rw [firedIds_append, hevs, List.append_nil]
    exact hI.cb_once i
  · intro i hpos
    show i < s.next_uid
    unfold slotCount at hpos
    rw [countP_fire (fun d => decide (d.on_delete = some i)) _ _
      (fun d => rfl)] at hpos
    rw [firedIds_append, hevs, List.append_nil] at hpos
    exact hI.cb_bound i hpos
  · have := hI.timer_eq
    rw [hfe] at this
    simp at this
    simp [this]

/-- Invariant preservation by `process_image_delete`, whatever the
pipeline returned. -/
theorem Inv_process {s : DeleterState} {tr : List Event} (hI : Inv s tr)
    (r : Int) (er : ErrorResult) :
    Inv (process_image_delete s r er).1
        (tr ++ (process_image_delete s r er).2.1) := by
  by_cases hr : r < 0
  · cases er with
    | complete =>
        rw [process_complete_eq hr]
        exact Inv_complete_active hI r
    | retryImmediately =>
        cases ha : s.active_delete with
        | none =>
            rw [process_retry_of_none hr ha]
            simpa using hI
        | some d =>
            rw [process_retry_of_some hr ha]
            exact Inv_retry_push hI r ha
    | other =>
        rw [process_other_eq hr]
        by_cases hc : r = -EBLACKLISTED
        · rw [enqueue_blacklisted hc]
          exact Inv_complete_active hI r
        · exact Inv_enqueue hI hc
  · rw [process_nonneg er hr]
    exact Inv_complete_active hI 0

/-- The invariant is preserved by every step. -/
theorem Inv_step {s s' : DeleterState} {tr evs : List Event}
    (hI : Inv s tr) (hst : Step s evs s') : Inv s' (tr ++ evs) := by
  cases hst with
  | schedule p g io => exact Inv_schedule hI p g io
  | wait p g nofr => exact Inv_wait hI p g nofr
  | cancel p g => exact Inv_cancel hI p g
  | take h ha =>
      rw [List.append_nil]
      exact Inv_take hI h ha
  | process r er ha => exact Inv_process hI r er
  | fire ht => exact Inv_fire hI ht

/-- Every reachable state satisfies the invariant. -/
theorem Inv_reach {s : DeleterState} {tr : List Event} (h : Reach s tr) :
    Inv s tr := by
  unfold Reach at h
  induction h with
  | refl => exact Inv_init
  | tail hsteps hstep ih => exact Inv_step ih hstep
/-- Reachability extends along further steps. -/
theorem reach_extend {s s2 : DeleterState} {tr tr2 : List Event}
    (hre : Reach s tr) (hsteps : Steps s tr2 s2) :
    Reach s2 (tr ++ tr2) := by
  induction hsteps with
  | refl => simpa using hre
  | tail hsteps hstep ih =>
      rw [← List.append_assoc]
      exact Steps.tail ih hstep

/-- The freshness counter never decreases across a step. -/
theorem step_next_uid_mono {s s' : DeleterState} {evs : List Event}
    (hst : Step s evs s') : s.next_uid ≤ s'.next_uid := by
  cases hst with
  | schedule p g io =>
      cases hf : find_delete_info s p g with
      | some a =>
          rw [schedule_found hf]
          by_cases hio : io
          · rw [if_pos hio]
            obtain ⟨-, hn, -, -, -, -, -, -⟩ :=
              updateFound_split
                (fun d => { d with ignore_orphaned := true }) hf
            simp only []
            omega
          · rw [if_neg hio]
      | none =>
          rw [schedule_not_found hf]
          simp only []
          omega
  | wait p g nofr =>
      cases hf : find_delete_info s p g with
      | none =>
          rw [wait_not_found hf]
          simp only []
          omega
      | some a =>
          rw [wait_found hf]
          have hf' : find_delete_info { s with next_uid := s.next_uid + 1 }
              p g = some a := hf
          obtain ⟨-, hn, -, -, -, -, -, -⟩ :=
            updateFound_split
              (fun e => { e with on_delete := some s.next_uid,
                                 notify_on_failed_retry := nofr }) hf'
          simp only []
          rw [hn]
          exact Nat.le_succ _
  | cancel p g =>
      cases hf : find_delete_info s p g with
      | none => rw [cancel_not_found hf]
      | some a =>
          cases hod : a.on_delete with
          | none => rw [cancel_found_no_waiter hf hod]
          | some cb =>
              rw [cancel_found_waiter hf hod]
              obtain ⟨-, hn, -, -, -, -, -, -⟩ :=
                updateFound_split (fun e => { e with on_delete := none }) hf
              simp only []
              omega
  | take h ha => exact Nat.le_refl _
  | process r er ha =>
      by_cases hr : r < 0
      · cases er with
        | complete =>
            rw [process_complete_eq hr]
            cases hact : s.active_delete with
            | none => rw [complete_active_of_none r hact]
            | some d => rw [complete_active_of_some r hact]
        | retryImmediately =>
            cases hact : s.active_delete with
            | none => rw [process_retry_of_none hr hact]
            | some d => rw [process_retry_of_some hr hact]
        | other =>
            rw [process_other_eq hr]
            by_cases hc : r = -EBLACKLISTED
            · rw [enqueue_blacklisted hc]
              cases hact : s.active_delete with
              | none => rw [complete_active_of_none r hact]
              | some d => rw [complete_active_of_some r hact]
            · cases hact : s.active_delete with
              | none => rw [enqueue_of_none hc hact]
              | some d => rw [enqueue_of_some hc hact]
      · rw [process_nonneg er hr]
        cases hact : s.active_delete with
        | none => rw [complete_active_of_none 0 hact]
        | some d => rw [complete_active_of_some 0 hact]
  | fire ht =>
      rw [fire_retry_timer_eq]

/-- Across one step, every surviving entry (an entry whose uid was
already assigned) descends from an entry with the same uid whose
`ignore_orphaned` flag it can only have raised. -/
theorem step_flag_mono {s s' : DeleterState} {evs : List Event}
    (hst : Step s evs s') :
    ∀ e' ∈ allEntries s', e'.uid < s.next_uid →
      ∃ e ∈ allEntries s, e.uid = e'.uid
        ∧ (e.ignore_orphaned = true → e'.ignore_orphaned = true) := by
  cases hst with
  | schedule p g io =>
      intro e' he' hlt
      cases hf : find_delete_info s p g with
      | some a =>
          rw [schedule_found hf] at he'
          by_cases hio : io
          · rw [if_pos hio] at he'
            simp only [] at he'
            rcases mem_updateFound _ hf he' with h | h
            · exact ⟨e', h, rfl, fun h => h⟩
            · subst h
              exact ⟨a, (find_delete_info_eq_some hf).1, rfl,
                fun _ => rfl⟩
          · rw [if_neg hio] at he'
            exact ⟨e', he', rfl, fun h => h⟩
      | none =>
          rw [schedule_not_found hf] at he'
          simp only [] at he'
          rcases mem_push_front.mp he' with h | h
          · subst h
            simp at hlt
          · exact ⟨e', h, rfl, fun h => h⟩
  | wait p g nofr =>
      intro e' he' hlt
      cases hf : find_delete_info s p g with
      | none =>
          rw [wait_not_found hf] at he'
          rw [allEntries_next] at he'
          exact ⟨e', he', rfl, fun h => h⟩
      | some a =>
          rw [wait_found hf] at he'
          have hf' : find_delete_info { s with next_uid := s.next_uid + 1 }
              p g = some a := hf
          simp only [] at he'
          rcases mem_updateFound _ hf' he' with h | h
          · rw [allEntries_next] at h
            exact ⟨e', h, rfl, fun h => h⟩
          · subst h
            exact ⟨a, (find_delete_info_eq_some hf).1, rfl, fun h => h⟩
  | cancel p g =>
      intro e' he' hlt
      cases hf : find_delete_info s p g with
      | none =>
          rw [cancel_not_found hf] at he'
          exact ⟨e', he', rfl, fun h => h⟩
      | some a =>
          cases hod : a.on_delete with
          | none =>
              rw [cancel_found_no_waiter hf hod] at he'
              exact ⟨e', he', rfl, fun h => h⟩
          | some cb =>
              rw [cancel_found_waiter hf hod] at he'
              simp only [] at he'
              rcases mem_updateFound _ hf he' with h | h
              · exact ⟨e', h, rfl, fun h => h⟩
              · subst h
                exact ⟨a, (find_delete_info_eq_some hf).1, rfl, fun h => h⟩
  | take h ha =>
      intro e' he' hlt
      exact ⟨e', mem_take _ h ha he', rfl, fun h => h⟩
  | process r er ha =>
      intro e' he' hlt
      by_cases hr : r < 0
      · cases er with
        | complete =>
            rw [process_complete_eq hr] at he'
            cases hact : s.active_delete with
            | none =>
                rw [complete_active_of_none r hact] at he'
                exact ⟨e', he', rfl, fun h => h⟩
            | some d =>
                rw [complete_active_of_some r hact] at he'
                simp only [] at he'
                rw [allEntries_clear_active] at he'
                refine ⟨e', ?_, rfl, fun h => h⟩
                rw [allEntries_of_active_some hact]
                exact List.mem_cons_of_mem _ he'
        | retryImmediately =>
            cases hact : s.active_delete with
            | none =>
                rw [process_retry_of_none hr hact] at he'
                exact ⟨e', he', rfl, fun h => h⟩
            | some d =>
                rw [process_retry_of_some hr hact] at he'
                simp only [] at he'
                rw [allEntries_retry_push] at he'
                rcases List.mem_cons.mp he' with h | h
                · subst h
                  refine ⟨d, ?_, ?_, ?_⟩
                  · rw [allEntries_of_active_some hact]
                    exact List.mem_cons_self d _
                  · cases hod : d.on_delete with
                    | some cb => rw [notify_of_some r hod]
                    | none => rw [notify_of_none r hod]
                  · cases hod : d.on_delete with
                    | some cb =>
                        rw [notify_of_some r hod]
                        exact fun h => h
                    | none =>
                        rw [notify_of_none r hod]
                        exact fun h => h
                · refine ⟨e', ?_, rfl, fun h => h⟩
                  rw [allEntries_of_active_some hact]
                  exact List.mem_cons_of_mem _ h
        | other =>
            rw [process_other_eq hr] at he'
            by_cases hc : r = -EBLACKLISTED
            · rw [enqueue_blacklisted hc] at he'
              cases hact : s.active_delete with
              | none =>
                  rw [complete_active_of_none r hact] at he'
                  exact ⟨e', he', rfl, fun h => h⟩
              | some d =>
                  rw [complete_active_of_some r hact] at he'
                  simp only [] at he'
                  rw [allEntries_clear_active] at he'
                  refine ⟨e', ?_, rfl, fun h => h⟩
                  rw [allEntries_of_active_some hact]
                  exact List.mem_cons_of_mem _ he'
            · cases hact : s.active_delete with
              | none =>
                  rw [enqueue_of_none hc hact] at he'
                  exact ⟨e', he', rfl, fun h => h⟩
              | some d =>
                  cases hnofr : d.notify_on_failed_retry with
                  | false =>
                      rw [enqueue_of_some_quiet hc hact hnofr] at he'
                      simp only [] at he'
                      rw [allEntries_enqueue_push] at he'
                      simp only [List.mem_append, List.mem_cons] at he'
                      rcases he' with h | h | h
                      · refine ⟨e', ?_, rfl, fun h => h⟩
                        rw [allEntries_of_active_some hact]
                        simp [List.mem_append, h]
                      · subst h
                        refine ⟨d, ?_, rfl, fun h => h⟩
                        rw [allEntries_of_active_some hact]
                        exact List.mem_cons_self d _
                      · refine ⟨e', ?_, rfl, fun h => h⟩
                        rw [allEntries_of_active_some hact]
                        simp [List.mem_append, h]
                  | true =>
                      rw [enqueue_of_some_notify hc hact hnofr] at he'
                      simp only [] at he'
                      rw [allEntries_enqueue_push] at he'
                      simp only [List.mem_append, List.mem_cons] at he'
                      rcases he' with h | h | h
                      · refine ⟨e', ?_, rfl, fun h => h⟩
                        rw [allEntries_of_active_some hact]
                        simp [List.mem_append, h]
                      · subst h
                        refine ⟨d, ?_, ?_, ?_⟩
                        · rw [allEntries_of_active_some hact]
                          exact List.mem_cons_self d _
                        · cases hod : d.on_delete with
                          | some cb => rw [notify_of_some r hod]
                          | none => rw [notify_of_none r hod]
                        · cases hod : d.on_delete with
                          | some cb =>
                              rw [notify_of_some r hod]
                              exact fun h => h
                          | none =>
                              rw [notify_of_none r hod]
                              exact fun h => h
                      · refine ⟨e', ?_, rfl, fun h => h⟩
                        rw [allEntries_of_active_some hact]
                        simp [List.mem_append, h]
      · rw [process_nonneg er hr] at he'
        cases hact : s.active_delete with
        | none =>
            rw [complete_active_of_none 0 hact] at he'
            exact ⟨e', he', rfl, fun h => h⟩
        | some d =>
            rw [complete_active_of_some 0 hact] at he'
            simp only [] at he'
            rw [allEntries_clear_active] at he'
            refine ⟨e', ?_, rfl, fun h => h⟩
            rw [allEntries_of_active_some hact]
            exact List.mem_cons_of_mem _ he'
  | fire ht =>
      intro e' he' hlt
      rw [fire_retry_timer_eq] at he'
      simp only [] at he'
      rw [allEntries_fire] at he'
      simp only [List.append_nil] at he'
      rcases List.mem_append.mp he' with h | h
      · refine ⟨e', ?_, rfl, fun h => h⟩
        unfold allEntries
        simp [List.mem_append, h]
      · rcases List.mem_append.mp h with h | h
        · refine ⟨e', ?_, rfl, fun h => h⟩
          unfold allEntries
          simp [List.mem_append, h]
        · obtain ⟨x, hx, hxe⟩ := List.mem_map.mp h
          rw [List.mem_reverse] at hx
          subst hxe
          refine ⟨x, ?_, rfl, fun h => h⟩
          unfold allEntries
          simp [List.mem_append, hx]

theorem steps_next_uid_mono {s s2 : DeleterState} {tr2 : List Event}
    (hsteps : Steps s tr2 s2) : s.next_uid ≤ s2.next_uid := by
  induction hsteps with
  | refl => exact Nat.le_refl _
  | tail hsteps hstep ih => exact Nat.le_trans ih (step_next_uid_mono hstep)

/-- In a state satisfying the invariant, an entry is determined by its
uid. -/
theorem uid_unique_entry {s : DeleterState} {tr : List Event}
    (hI : Inv s tr) {e e2 : DeleteInfo} (he : e ∈ allEntries s)
    (he2 : e2 ∈ allEntries s) (hu : e2.uid = e.uid) : e2 = e := by
  by_contra hne
  obtain ⟨l1, l2, hsp⟩ := List.append_of_mem he
  have h1 := hI.uid_once e.uid
  unfold uidCount at h1
  rw [hsp] at h1 he2
  simp only [List.countP_append, List.countP_cons] at h1
  rw [ite_decide_pos trivial] at h1
  simp only [List.mem_append, List.mem_cons] at he2
  rcases he2 with h | h | h
  · have hx : 0 < l1.countP (fun d => decide (d.uid = e.uid)) :=
      countP_pos_of_mem h (by simp [hu])
    omega
  · exact hne h
  · have hx : 0 < l2.countP (fun d => decide (d.uid = e.uid)) :=
      countP_pos_of_mem h (by simp [hu])
    omega

/-- `ignore_orphaned`, once true on the entry with a given uid, stays
true on that uid for as long as the entry survives. -/
theorem flag_mono_steps {s s2 : DeleterState} {tr2 : List Event}
    (hsteps : Steps s tr2 s2) {u : Nat} (hu : u < s.next_uid)
    (hall : ∀ e ∈ allEntries s, e.uid = u → e.ignore_orphaned = true) :
    ∀ e ∈ allEntries s2, e.uid = u → e.ignore_orphaned = true := by
  induction hsteps with
  | refl => exact hall
  | tail hsteps hstep ih =>
      intro e' he' hu'
      have hm := steps_next_uid_mono hsteps
      obtain ⟨e, he, heu, himp⟩ :=
        step_flag_mono hstep e' he' (by omega)
      exact himp (ih e he (by rw [heu, hu']))
theorem isSome_map {α β : Type} (f : α → β) (o : Option α) :
    (o.map f).isSome = o.isSome := by
  cases o <;> rfl

/-! ### The claims -/

/-- C1: Deduplication invariant: in every reachable state, for every pool
id and global image id at most one `DeleteInfo` across the pending deque,
the active slot and the failed deque matches it; and whenever
`find_delete_info` locates a matching entry, `schedule_image_delete`
creates no new entry (the sizes of all three positions are unchanged). -/
theorem C1_deduplication {s : DeleterState} {tr : List Event}
    (hre : Reach s tr) :
    (∀ p g, matchCount s p g ≤ 1)
    ∧ (∀ p g io a, find_delete_info s p g = some a →
        (schedule_image_delete s p g io).1.delete_queue.length
            = s.delete_queue.length
        ∧ (schedule_image_delete s p g io).1.active_delete.isSome
            = s.active_delete.isSome
        ∧ (schedule_image_delete s p g io).1.failed_queue.length
            = s.failed_queue.length) := by
  refine ⟨(Inv_reach hre).match_once, ?_⟩
  intro p g io a hf
  rw [schedule_found hf]
  by_cases hio : io
  · rw [if_pos hio]
    obtain ⟨-, -, hdl, hfl, -, -, -, -⟩ :=
      updateFound_split (fun d => { d with ignore_orphaned := true }) hf
    refine ⟨hdl, ?_, hfl⟩
    have hm := (@updateFound_maps Nat s p g
      (fun d => { d with ignore_orphaned := true })
      (fun d => d.uid) (fun d => rfl)).2.2
    have h2 := congrArg Option.isSome hm
    rwa [isSome_map, isSome_map] at h2
  · rw [if_neg hio]
    exact ⟨rfl, rfl, rfl⟩

/-- Witness for C1 at the state reached by one `schedule`. -/
theorem C1_witness :
    matchCount (schedule_image_delete initState 1 "a" false).1 1 "a" ≤ 1 := by
  have hre : Reach (schedule_image_delete initState 1 "a" false).1
      ([] ++ (schedule_image_delete initState 1 "a" false).2) :=
    Steps.tail (Steps.refl _) (Step.schedule initState 1 "a" false)
  exact (C1_deduplication hre).1 1 "a"

/-- C4: `wait_for_scheduled_deletion` completes the fresh wrapped
callback with 0 when no entry matches; when an entry with an installed
`on_delete` matches, that callback completes with `-ESTALE` and the new
callback replaces it (with the given `notify_on_failed_retry`), all
other entries untouched. -/
theorem C4_wait_semantics {s : DeleterState} (p : Int) (g : String)
    (nofr : Bool) :
    (find_delete_info s p g = none →
      wait_for_scheduled_deletion s p g nofr
        = ({ s with next_uid := s.next_uid + 1 },
           [Event.complete s.next_uid 0]))
    ∧ (∀ a old, find_delete_info s p g = some a → a.on_delete = some old →
        (wait_for_scheduled_deletion s p g nofr).2
          = [Event.complete old (-ESTALE)])
    ∧ (∀ a, find_delete_info s p g = some a →
        ∃ l1 l2, allEntries s = l1 ++ a :: l2
          ∧ allEntries (wait_for_scheduled_deletion s p g nofr).1
              = l1 ++ { a with on_delete := some s.next_uid,
                               notify_on_failed_retry := nofr } :: l2) := by
  refine ⟨fun hf => wait_not_found hf, ?_, ?_⟩
  · intro a old hf hod
    rw [wait_found hf, hod]
  · intro a hf
    have hf' : find_delete_info { s with next_uid := s.next_uid + 1 } p g
        = some a := hf
    obtain ⟨-, -, -, -, l1, l2, hsp, hup⟩ :=
      updateFound_split
        (fun e => { e with on_delete := some s.next_uid,
                           notify_on_failed_retry := nofr }) hf'
    rw [allEntries_next] at hsp
    rw [wait_found hf]
    exact ⟨l1, l2, hsp, hup⟩

/-- Witness for C4 on the empty deleter. -/
theorem C4_witness :
    wait_for_scheduled_deletion initState 1 "a" false
      = ({ initState with next_uid := 1 }, [Event.complete 0 0]) :=
  (C4_wait_semantics 1 "a" false).1 (by decide)

/-- C10: the entry in the active slot is invisible to `print_status`,
`get_delete_queue_items` and `get_failed_queue_items` (they enumerate
only the pending and failed deques), although `find_delete_info` does
consult the active slot. -/
theorem C10_active_invisible (s : DeleterState) (a : Option DeleteInfo)
    (p : Int) (g : String) (d : DeleteInfo) :
    print_status { s with active_delete := a } = print_status s
    ∧ get_delete_queue_items { s with active_delete := a }
        = get_delete_queue_items s
    ∧ get_failed_queue_items { s with active_delete := a }
        = get_failed_queue_items s
    ∧ (d.matchId p g = true →
        find_delete_info { s with active_delete := some d } p g = some d) := by
  refine ⟨rfl, rfl, rfl, ?_⟩
  intro h
  unfold find_delete_info
  simp [h]

/-- Witness for C10: a matching active entry is found in the slot. -/
theorem C10_witness :
    find_delete_info
        { initState with
            active_delete := some (newEntry 0 1 "a" false) } 1 "a"
      = some (newEntry 0 1 "a" false) :=
  (C10_active_invisible initState none 1 "a" (newEntry 0 1 "a" false)).2.2.2
    (by decide)

/-- C2 counterexample.  Run: `schedule(1,"a")`, install a waiter with
`notify_on_failed_retry = false`, take the entry, fail it once with
`(-5, RetryImmediately)`, then succeed.  The waiter (callback id 1) is
fired with `-5` although `notify_on_failed_retry` was `false`, and the
final success fires nothing at all (the slot was cleared by the
retry-immediate notification) — so the waiter never receives the final
`0`, contrary to the claim. -/
theorem C2_counterexample :
    (∀ d ∈ (wait_for_scheduled_deletion
        (schedule_image_delete initState 1 "a" false).1
        1 "a" false).1.delete_queue, d.notify_on_failed_retry = false)
    ∧ (process_image_delete (take_next (wait_for_scheduled_deletion
          (schedule_image_delete initState 1 "a" false).1
          1 "a" false).1) (-5) ErrorResult.retryImmediately).2.1
        = [Event.complete 1 (-5)]
    ∧ (process_image_delete (take_next
          (process_image_delete (take_next (wait_for_scheduled_deletion
            (schedule_image_delete initState 1 "a" false).1
            1 "a" false).1) (-5) ErrorResult.retryImmediately).1)
          0 ErrorResult.other).2.1
        = [] := by
  refine ⟨?_, ?_, ?_⟩ <;> decide

/-- C2 amended: on a RetryImmediately-classified failure the entry is
re-pushed at the front of the pending deque and the waiter is notified
with the error code *unconditionally* (whatever
`notify_on_failed_retry` is), which clears the callback slot; the
subsequent success therefore fires no waiter callback. -/
theorem C2_retry_immediate (r : Int) {s : DeleterState} {d : DeleteInfo}
    {cb : Nat} (hr : r < 0) (ha : s.active_delete = some d)
    (hcb : d.on_delete = some cb) :
    process_image_delete s r ErrorResult.retryImmediately
      = ({ s with
            active_delete := none,
            delete_queue := { d with on_delete := none } :: s.delete_queue },
         [Event.complete cb r], false)
    ∧ ∀ (t : DeleterState) (e : DeleteInfo) (er : ErrorResult),
        t.active_delete = some e → e.on_delete = none →
        process_image_delete t 0 er
          = ({ t with active_delete := none }, [], true) := by
  constructor
  · rw [process_retry_of_some hr ha, notify_of_some r hcb]
  · intro t e er ha2 he2
    rw [process_nonneg er (by omega), complete_active_of_some 0 ha2,
      notify_of_none 0 he2]

/-- Witness for the amended C2 on the concrete retry-immediate run. -/
theorem C2_witness :
    (process_image_delete (take_next (wait_for_scheduled_deletion
        (schedule_image_delete initState 1 "a" false).1
        1 "a" false).1) (-5) ErrorResult.retryImmediately).2.1
      = [Event.complete 1 (-5)] := by
  have h := @C2_retry_immediate (-5)
    (take_next (wait_for_scheduled_deletion
      (schedule_image_delete initState 1 "a" false).1 1 "a" false).1)
    (DeleteInfo.mk 0 1 "a" false (some 1) false 0 0) 1
    (by decide) (by decide) (by decide)
  rw [h.1]

/-- C3 counterexample.  A remove-pipeline failure with the blacklisted
code but classifier RetryImmediately is *not* treated as a Complete
failure: the entry is re-pushed at the front of the pending deque
(so it is not dropped) and the worker is told not to move on. -/
theorem C3_counterexample :
    (process_image_delete (take_next (wait_for_scheduled_deletion
        (schedule_image_delete initState 1 "a" false).1
        1 "a" false).1) (-EBLACKLISTED)
        ErrorResult.retryImmediately).1.delete_queue.length = 1
    ∧ (process_image_delete (take_next (wait_for_scheduled_deletion
        (schedule_image_delete initState 1 "a" false).1
        1 "a" false).1) (-EBLACKLISTED)
        ErrorResult.retryImmediately).2.2 = false := by
  refine ⟨?_, ?_⟩ <;> decide

/-- C3 amended: for the classifiers Complete and Other, a failure whose
code is `-EBLACKLISTED` is treated as a Complete failure — the waiter is
notified with the blacklisted code, the entry is dropped, the failed
deque and the timer are untouched; with classifier RetryImmediately the
blacklisted code instead takes the retry-immediate path. -/
theorem C3_blacklisted (er : ErrorResult) {s : DeleterState}
    {d : DeleteInfo} (her : er ≠ ErrorResult.retryImmediately)
    (ha : s.active_delete = some d) :
    process_image_delete s (-EBLACKLISTED) er
      = ({ s with active_delete := none },
         (d.notify (-EBLACKLISTED)).2, true) := by
  have hr : (-EBLACKLISTED : Int) < 0 := by decide
  cases er with
  | complete => rw [process_complete_eq hr, complete_active_of_some _ ha]
  | retryImmediately => exact absurd rfl her
  | other =>
      rw [process_other_eq hr, enqueue_blacklisted rfl,
        complete_active_of_some _ ha]

/-- Witness for the amended C3: blacklisted + Other drops the entry,
fires the waiter with the code, leaves failed deque and timer alone. -/
theorem C3_witness :
    (process_image_delete (take_next (wait_for_scheduled_deletion
        (schedule_image_delete initState 1 "a" false).1
        1 "a" false).1) (-EBLACKLISTED) ErrorResult.other).2.1
      = [Event.complete 1 (-EBLACKLISTED)] := by
  have h := @C3_blacklisted ErrorResult.other
    (take_next (wait_for_scheduled_deletion
      (schedule_image_delete initState 1 "a" false).1 1 "a" false).1)
    (DeleteInfo.mk 0 1 "a" false (some 1) false 0 0)
    (by decide) (by decide)
  rw [h]
  decide

/-- C5: in every reachable trace each callback id completes at most once
(at most once per installation, since ids are never reused), and a
displaced waiter is completed exactly once, with `-ESTALE`, by the
`wait_for_scheduled_deletion` call that replaces it. -/
theorem C5_waiter_at_most_once {s : DeleterState} {tr : List Event}
    (hre : Reach s tr) :
    (∀ i, (firedIds tr).count i ≤ 1)
    ∧ (∀ p g nofr a old, find_delete_info s p g = some a →
        a.on_delete = some old →
        (wait_for_scheduled_deletion s p g nofr).2
          = [Event.complete old (-ESTALE)]) := by
  have hI := Inv_reach hre
  refine ⟨?_, ?_⟩
  · intro i
    have := hI.cb_once i
    omega
  · intro p g nofr a old hf hod
    rw [wait_found hf, hod]

/-- Witness for C5: the second waiter displaces the first with
`-ESTALE`. -/
theorem C5_witness :
    (wait_for_scheduled_deletion (wait_for_scheduled_deletion
        (schedule_image_delete initState 1 "a" false).1 1 "a" false).1
      1 "a" true).2 = [Event.complete 1 (-ESTALE)] := by
  have hre : Reach (wait_for_scheduled_deletion
      (schedule_image_delete initState 1 "a" false).1 1 "a" false).1
      (([] ++ (schedule_image_delete initState 1 "a" false).2)
        ++ (wait_for_scheduled_deletion
            (schedule_image_delete initState 1 "a" false).1 1 "a" false).2) :=
    Steps.tail (Steps.tail (Steps.refl _)
        (Step.schedule initState 1 "a" false))
      (Step.wait (schedule_image_delete initState 1 "a" false).1 1 "a" false)
  exact (C5_waiter_at_most_once hre).2 1 "a" true
    (DeleteInfo.mk 0 1 "a" false (some 1) false 0 0) 1
    (by decide) (by decide)

/-- C6: `enqueue_failed_delete` on a non-blacklisted error schedules the
one-shot retry timer iff the failed deque was empty immediately before
the insertion, and in every reachable state at most one retry timer is
pending, before as after. -/
theorem C6_retry_timer_guard {s : DeleterState} {tr : List Event}
    (hre : Reach s tr) (err : Int) (hne : err ≠ -EBLACKLISTED)
    {d : DeleteInfo} (ha : s.active_delete = some d) :
    (enqueue_failed_delete s err).1.timer_count
        = s.timer_count + (if s.failed_queue.isEmpty then 1 else 0)
    ∧ s.timer_count ≤ 1
    ∧ (enqueue_failed_delete s err).1.timer_count ≤ 1 := by
  have hI := Inv_reach hre
  have ht := hI.timer_eq
  have h1 : (enqueue_failed_delete s err).1.timer_count
      = if s.failed_queue.isEmpty then s.timer_count + 1
        else s.timer_count := by
    cases hnofr : d.notify_on_failed_retry with
    | false => rw [enqueue_of_some_quiet hne ha hnofr]
    | true => rw [enqueue_of_some_notify hne ha hnofr]
  refine ⟨?_, ?_, ?_⟩
  · rw [h1]
    cases hfe : s.failed_queue.isEmpty <;> simp [hfe]
  · rw [ht]
    cases hfe : s.failed_queue.isEmpty <;> simp [hfe]
  · rw [h1, ht]
    cases hfe : s.failed_queue.isEmpty <;> simp [hfe]

/-- Witness for C6: after the first failed delete at most one timer is
pending. -/
theorem C6_witness :
    (enqueue_failed_delete
        (take_next (schedule_image_delete initState 1 "a" false).1)
        (-2)).1.timer_count ≤ 1 := by
  have hre : Reach (take_next (schedule_image_delete initState 1 "a" false).1)
      (([] ++ (schedule_image_delete initState 1 "a" false).2) ++ []) :=
    Steps.tail (Steps.tail (Steps.refl _)
        (Step.schedule initState 1 "a" false))
      (Step.take (schedule_image_delete initState 1 "a" false).1
        (by decide) (by decide))
  exact (@C6_retry_timer_guard _ _ hre (-2) (by decide)
    (DeleteInfo.mk 0 1 "a" false none false 0 0) (by decide)).2.2

/-- C7: when the pending retry timer fires, `retry_failed_deletions`
moves every failed entry to the back of the pending deque (draining the
failed deque from the back, leaving it empty), increments each migrated
entry's `retries` by exactly one, and signals the condition variable. -/
theorem C7_retry_failed_drain {s : DeleterState} {tr : List Event}
    (hre : Reach s tr) (ht : 0 < s.timer_count) :
    (retry_failed_deletions s).1.delete_queue
        = s.delete_queue ++ s.failed_queue.reverse.map
            (fun d => { d with retries := d.retries + 1 })
    ∧ (retry_failed_deletions s).1.failed_queue = []
    ∧ (retry_failed_deletions s).2 = [Event.signal] := by
  have hI := Inv_reach hre
  have hfe : s.failed_queue.isEmpty = false := by
    have := hI.timer_eq
    cases hq : s.failed_queue.isEmpty with
    | true =>
        rw [hq] at this
        simp at this
        omega
    | false => rfl
  rw [retry_failed_deletions_eq]
  refine ⟨rfl, rfl, ?_⟩
  rw [hfe]
  rfl

/-- Witness for C7 at the first deferred-retry state. -/
theorem C7_witness :
    (retry_failed_deletions (process_image_delete
        (take_next (schedule_image_delete initState 1 "a" false).1)
        (-2) ErrorResult.other).1).2 = [Event.signal] := by
  have hre : Reach (process_image_delete
      (take_next (schedule_image_delete initState 1 "a" false).1)
      (-2) ErrorResult.other).1
      ((([] ++ (schedule_image_delete initState 1 "a" false).2) ++ [])
        ++ (process_image_delete
            (take_next (schedule_image_delete initState 1 "a" false).1)
            (-2) ErrorResult.other).2.1) :=
    Steps.tail (Steps.tail (Steps.tail (Steps.refl _)
        (Step.schedule initState 1 "a" false))
      (Step.take (schedule_image_delete initState 1 "a" false).1
        (by decide) (by decide)))
      (Step.process (take_next (schedule_image_delete initState 1 "a" false).1)
        (-2) ErrorResult.other (by decide))
  exact (C7_retry_failed_drain hre (by decide)).2.2

/-- C8: scheduling an identity that already has a matching entry emits
no callback, leaves every queue position unchanged (up to the updated
orphan flag), sets `ignore_orphaned` on the existing entry when the
argument is true and is a no-op when it is false; and once an entry's
`ignore_orphaned` is true it stays true under any further steps. -/
theorem C8_schedule_idempotent {s : DeleterState} {tr : List Event}
    (hre : Reach s tr) (p : Int) (g : String) (io : Bool) {a : DeleteInfo}
    (hf : find_delete_info s p g = some a) :
    (schedule_image_delete s p g io).2 = []
    ∧ (schedule_image_delete s p g io).1.delete_queue.map
          (fun d => (d.uid, d.on_delete, d.notify_on_failed_retry))
        = s.delete_queue.map
          (fun d => (d.uid, d.on_delete, d.notify_on_failed_retry))
    ∧ (schedule_image_delete s p g io).1.failed_queue.map
          (fun d => (d.uid, d.on_delete, d.notify_on_failed_retry))
        = s.failed_queue.map
          (fun d => (d.uid, d.on_delete, d.notify_on_failed_retry))
    ∧ (schedule_image_delete s p g io).1.active_delete.map
          (fun d => (d.uid, d.on_delete, d.notify_on_failed_retry))
        = s.active_delete.map
          (fun d => (d.uid, d.on_delete, d.notify_on_failed_retry))
    ∧ (io = false → schedule_image_delete s p g io = (s, []))
    ∧ (io = true → ∃ l1 l2, allEntries s = l1 ++ a :: l2
        ∧ allEntries (schedule_image_delete s p g io).1
            = l1 ++ { a with ignore_orphaned := true } :: l2)
    ∧ (a.ignore_orphaned = true →
        ∀ s2 tr2, Steps s tr2 s2 →
          ∀ e ∈ allEntries s2, e.uid = a.uid → e.ignore_orphaned = true) := by
  have hI := Inv_reach hre
  have hmono : a.ignore_orphaned = true →
      ∀ s2 tr2, Steps s tr2 s2 →
        ∀ e ∈ allEntries s2, e.uid = a.uid → e.ignore_orphaned = true := by
    intro hflag s2 tr2 hsteps
    refine flag_mono_steps hsteps
      (hI.uid_bound a (find_delete_info_eq_some hf).1) ?_
    intro e2 he2 hu2
    rw [uid_unique_entry hI (find_delete_info_eq_some hf).1 he2 hu2]
    exact hflag
  rw [schedule_found hf]
  cases io with
  | false =>
      refine ⟨rfl, rfl, rfl, rfl, fun _ => rfl, ?_, hmono⟩
      intro h
      exact absurd h (by decide)
  | true =>
      obtain ⟨-, -, -, -, l1, l2, hsp, hup⟩ :=
        updateFound_split (fun d => { d with ignore_orphaned := true }) hf
      have hmap := @updateFound_maps (Nat × Option Nat × Bool) s p g
        (fun d => { d with ignore_orphaned := true })
        (fun d => (d.uid, d.on_delete, d.notify_on_failed_retry))
        (fun d => rfl)
      refine ⟨rfl, hmap.1, hmap.2.1, hmap.2.2, ?_, ?_, hmono⟩
      · intro h
        exact absurd h (by decide)
      · intro h
        exact ⟨l1, l2, hsp, hup⟩

/-- Witness for C8: re-scheduling an already queued identity emits no
event. -/
theorem C8_witness :
    (schedule_image_delete (schedule_image_delete initState 1 "a" false).1
      1 "a" true).2 = [] := by
  have hre : Reach (schedule_image_delete initState 1 "a" false).1
      ([] ++ (schedule_image_delete initState 1 "a" false).2) :=
    Steps.tail (Steps.refl _) (Step.schedule initState 1 "a" false)
  exact (@C8_schedule_idempotent _ _ hre 1 "a" true
    (DeleteInfo.mk 0 1 "a" false none false 0 0) (by decide)).1

/-- C9: `cancel_waiter` fires an installed callback with `-ECANCELED`
and clears the slot, leaving the entry in place (all positions keep
their entries, identified by uid), and that cancelled installation is
never completed again in any subsequent run; with no match or no
installed callback it changes nothing. -/
theorem C9_cancel_waiter {s : DeleterState} {tr : List Event}
    (hre : Reach s tr) (p : Int) (g : String) :
    (find_delete_info s p g = none → cancel_waiter s p g = (s, []))
    ∧ (∀ a, find_delete_info s p g = some a → a.on_delete = none →
        cancel_waiter s p g = (s, []))
    ∧ (∀ a cb, find_delete_info s p g = some a → a.on_delete = some cb →
        (cancel_waiter s p g).2 = [Event.complete cb (-ECANCELED)]
        ∧ (∃ l1 l2, allEntries s = l1 ++ a :: l2
            ∧ allEntries (cancel_waiter s p g).1
                = l1 ++ { a with on_delete := none } :: l2)
        ∧ (cancel_waiter s p g).1.delete_queue.map (fun d => d.uid)
            = s.delete_queue.map (fun d => d.uid)
        ∧ (cancel_waiter s p g).1.failed_queue.map (fun d => d.uid)
            = s.failed_queue.map (fun d => d.uid)
        ∧ (cancel_waiter s p g).1.active_delete.map (fun d => d.uid)
            = s.active_delete.map (fun d => d.uid)
        ∧ ∀ s2 tr2, Steps (cancel_waiter s p g).1 tr2 s2 →
            (firedIds tr2).count cb = 0) := by
  refine ⟨fun hf => cancel_not_found hf,
    fun a hf hod => cancel_found_no_waiter hf hod, ?_⟩
  intro a cb hf hod
  have heq := cancel_found_waiter hf hod
  obtain ⟨-, -, -, -, l1, l2, hsp, hup⟩ :=
    updateFound_split (fun e => { e with on_delete := none }) hf
  have hmap := @updateFound_maps Nat s p g
    (fun e => { e with on_delete := none }) (fun d => d.uid) (fun d => rfl)
  have hstep : Step s [Event.complete cb (-ECANCELED)]
      (updateFound s p g (fun e => { e with on_delete := none })) := by
    have h0 := Step.cancel s p g
    rw [heq] at h0
    exact h0
  rw [heq]
  refine ⟨rfl, ⟨l1, l2, hsp, hup⟩, hmap.1, hmap.2.1, hmap.2.2, ?_⟩
  intro s2 tr2 hsteps
  have hre2 : Reach s2 ((tr ++ [Event.complete cb (-ECANCELED)]) ++ tr2) :=
    reach_extend (Steps.tail hre hstep) hsteps
  have hc := (Inv_reach hre2).cb_once cb
  simp only [firedIds_append, firedIds_complete, firedIds_nil,
    List.count_append, List.count_cons_self, List.count_nil] at hc
  omega

/-- Witness for C9: cancelling the installed waiter fires it with
`-ECANCELED`. -/
theorem C9_witness :
    (cancel_waiter (wait_for_scheduled_deletion
        (schedule_image_delete initState 1 "a" false).1 1 "a" false).1
      1 "a").2 = [Event.complete 1 (-ECANCELED)] := by
  have hre : Reach (wait_for_scheduled_deletion
      (schedule_image_delete initState 1 "a" false).1 1 "a" false).1
      (([] ++ (schedule_image_delete initState 1 "a" false).2)
        ++ (wait_for_scheduled_deletion
            (schedule_image_delete initState 1 "a" false).1 1 "a" false).2) :=
    Steps.tail (Steps.tail (Steps.refl _)
        (Step.schedule initState 1 "a" false))
      (Step.wait (schedule_image_delete initState 1 "a" false).1 1 "a" false)
  exact ((C9_cancel_waiter hre 1 "a").2.2
    (DeleteInfo.mk 0 1 "a" false (some 1) false 0 0) 1
    (by decide) (by decide)).1
end RbdMirror
